import Mathlib

/-!
Verification development for the world-happiness-meter worker.

The TypeScript sources are shallowly embedded as Lean definitions:

* Strings are `List Char` (`Str`).  JavaScript regular-expression matching
  used by the classifier parser is embedded by a direct scan-from-the-left
  function (`scanFor`) that mirrors the leftmost-match semantics of
  `String.prototype.match` for the concrete patterns appearing in the
  source (a literal label followed by optional whitespace and either a
  digits-and-dots run or a greedy rest-of-line capture).
* JavaScript numbers are embedded as `ℚ`; `parseFloat` applied to a
  capture of the character class of digits and dots is `parseFloatQ`
  (an input with no digit at all would be `NaN` in JavaScript; it is
  represented here by `0` and never arises in the claims).
* `Date` values are embedded as `Nat` milliseconds since the epoch (UTC,
  as on Cloudflare Workers).  An ISO-8601 key string is order-isomorphic
  to its millisecond value, and two keys share their first 13 characters
  (date plus hour) exactly when their millisecond values have the same
  quotient by 3600000, so string keys are embedded as their millisecond
  value and the hour bucket of a key `t` is `t / 3600000`.
* `Array.prototype.sort(cmp)` is required by ECMAScript to be a stable
  sort; it is embedded as the stable insertion sort `stableSort le`
  where `le a b` means `cmp(a,b) <= 0` (the unique stable sorted
  permutation is algorithm independent).
* The KV namespace is a finite list of entries; `list({prefix,cursor})`
  pagination (1000 keys a page, the Cloudflare default, lexicographic
  order) is embedded by `kvListAll` plus `pagedScan`.
* Network effects (the Jetstream subscription, the OpenRouter call) are
  external: the aggregation phase of `updateMeters` receives the list of
  already-classified outcomes, and the stream collector is embedded as a
  fold of its event handler over the finite sequence of incoming events.
-/

namespace HappinessMeter

/-- Strings of the embedded program are lists of characters. -/
abbrev Str : Type := List Char

/-! ## Classifier reply parsing (worker/sentiment-analyzer.ts, parseSentimentResponse) -/

/-- Character class of the regex fragment used for score values. -/
def isNumChar (c : Char) : Bool := c.isDigit || c == '.'

/-- Character class of the JavaScript regex dot: any character except a
line terminator (the replies are ASCII, so only line feed and carriage
return matter). -/
def isDotChar (c : Char) : Bool := !(c == '\n' || c == '\r')

/-- Decides whether `pat` is a prefix of `s` (the anchored part of a
regex match attempt at one position). -/
def matchesAt : Str → Str → Bool
  | [], _ => true
  | _ :: _, [] => false
  | p :: ps, c :: cs => p == c && matchesAt ps cs

/-- Embedding of matching the regex tail for a score label at a fixed
position: optional whitespace, then a non-empty greedy run of digits and
dots (the two character classes are disjoint, so greedy matching needs
no backtracking). -/
def scanScoreVal (s : Str) : Option Str :=
  let t := s.dropWhile Char.isWhitespace
  let d := t.takeWhile isNumChar
  if d.isEmpty then none else some d

/-- Embedding of matching the regex tail for the concepts label at a fixed
position: optional greedy whitespace, then a non-empty greedy run of
non-line-terminator characters.  When every remaining character is
whitespace the greedy star backtracks to the last whitespace character
that is not itself a line terminator, whose one-character run is the
capture. -/
def scanRestVal (s : Str) : Option Str :=
  let t := s.dropWhile Char.isWhitespace
  if t.isEmpty then ((s.filter isDotChar).getLast?).map (fun c => [c])
  else some (t.takeWhile isDotChar)

/-- Leftmost-match regex scan: try the pattern anchored at every position
from the left, returning the first successful capture, as
`String.prototype.match` does for the source's patterns. -/
def scanFor (pat : Str) (m : Str → Option Str) : Str → Option Str
  | [] => none
  | c :: rest =>
    match (if matchesAt pat (c :: rest) then m ((c :: rest).drop pat.length) else none) with
    | some r => some r
    | none => scanFor pat m rest

/-- Numeric value of a digit string (most significant first). -/
def digitsVal (s : Str) : Nat := s.foldl (fun acc c => acc * 10 + (c.toNat - 48)) 0

/-- Embedding of JavaScript parseFloat on a capture drawn from the
digits-and-dots character class: an integer part, then an optional
fraction after the first dot, everything from a second dot on ignored.
A capture with no digits at all is NaN in JavaScript; it is represented
by 0 here and does not occur in any claim. -/
def parseFloatQ (s : Str) : ℚ :=
  let ip := s.takeWhile Char.isDigit
  match s.drop ip.length with
  | '.' :: r2 =>
    let fp := r2.takeWhile Char.isDigit
    (digitsVal ip : ℚ) + (digitsVal fp : ℚ) / (10 : ℚ) ^ fp.length
  | _ => (digitsVal ip : ℚ)

/-- Embedding of String.prototype.trim. -/
def trimStr (s : Str) : Str :=
  ((s.dropWhile Char.isWhitespace).reverse.dropWhile Char.isWhitespace).reverse

/-- Embedding of the concepts post-processing in parseSentimentResponse:
trim the capture, split on commas, trim each piece, drop empty pieces. -/
def splitConcepts (cap : Str) : List Str :=
  ((List.splitOn ',' (trimStr cap)).map trimStr).filter (fun c => !c.isEmpty)

/-- Embedding of the SentimentResult union of sentiment-analyzer.ts:
either six scores with a concept list, or an error record whose reason
is a string or null. -/
inductive SentimentResult where
  | success (happiness sadness anger fear surprise disgust : ℚ) (concepts : List Str)
  | failure (error : Option Str)
deriving DecidableEq

/-- Embedding of parseSentimentResponse: extract the six labelled score
fields and the concepts field independently by pattern match; if any of
the seven is missing the whole raw reply is the failure reason.  (The
surrounding try/catch of the source cannot fire in this total
embedding.) -/
def parseSentimentResponse (content : Str) : SentimentResult :=
  match scanFor "happiness:".data scanScoreVal content,
        scanFor "sadness:".data scanScoreVal content,
        scanFor "anger:".data scanScoreVal content,
        scanFor "fear:".data scanScoreVal content,
        scanFor "surprise:".data scanScoreVal content,
        scanFor "disgust:".data scanScoreVal content,
        scanFor "concepts:".data scanRestVal content with
  | some h, some sa, some an, some fe, some su, some di, some co =>
    .success (parseFloatQ h) (parseFloatQ sa) (parseFloatQ an) (parseFloatQ fe)
      (parseFloatQ su) (parseFloatQ di) (splitConcepts co)
  | _, _, _, _, _, _, _ => .failure (some content)

/-! ## Aggregation (sentiment-meter.ts, updateMeters) -/

/-- Embedding of the SentimentData record of sentiment-meter.ts.  The
timestamp is epoch milliseconds; topConcepts is an association list in
JavaScript object insertion order. -/
structure SentimentData where
  timestamp : Nat
  messageCount : Nat
  happinessAvg : ℚ
  sadnessAvg : ℚ
  angerAvg : ℚ
  fearAvg : ℚ
  surpriseAvg : ℚ
  disgustAvg : ℚ
  topConcepts : List (Str × Nat)
deriving DecidableEq

/-- Embedding of String.prototype.toLowerCase (ASCII, as produced by the
classifier contract). -/
def lowerStr (s : Str) : Str := s.map Char.toLower

/-- Embedding of `conceptCounts[c] = (conceptCounts[c] || 0) + 1` on a
JavaScript object: an existing key keeps its position and is bumped, a
new key is appended. -/
def incrConcept : List (Str × Nat) → Str → List (Str × Nat)
  | [], c => [(c, 1)]
  | (k, n) :: rest, c =>
    if k = c then (k, n + 1) :: rest else (k, n) :: incrConcept rest c

/-- The mutable accumulators of the aggregation loop in updateMeters. -/
structure AggState where
  messageCount : Nat
  failureCount : Nat
  noSentimentCount : Nat
  happinessSum : ℚ
  sadnessSum : ℚ
  angerSum : ℚ
  fearSum : ℚ
  surpriseSum : ℚ
  disgustSum : ℚ
  conceptCounts : List (Str × Nat)
deriving DecidableEq

/-- Initial accumulator values of updateMeters. -/
def initAgg : AggState := ⟨0, 0, 0, 0, 0, 0, 0, 0, 0, []⟩

/-- The NO SENTIMENT sentinel string. -/
def noSentimentStr : Str := "NO SENTIMENT".data

/-- One iteration of the result-aggregation loop of updateMeters: a
success bumps messageCount, the six sums and the concept counts (each
concept lower-cased); a failure bumps noSentimentCount exactly when its
reason is the sentinel and failureCount otherwise. -/
def aggStep (st : AggState) (r : SentimentResult) : AggState :=
  match r with
  | .success h sa an fe su di cs =>
    { st with
      messageCount := st.messageCount + 1
      happinessSum := st.happinessSum + h
      sadnessSum := st.sadnessSum + sa
      angerSum := st.angerSum + an
      fearSum := st.fearSum + fe
      surpriseSum := st.surpriseSum + su
      disgustSum := st.disgustSum + di
      conceptCounts := cs.foldl (fun t c => incrConcept t (lowerStr c)) st.conceptCounts }
  | .failure e =>
    if e = some noSentimentStr then { st with noSentimentCount := st.noSentimentCount + 1 }
    else { st with failureCount := st.failureCount + 1 }

/-- The aggregation loop of updateMeters over the classified outcomes. -/
def aggregate (results : List SentimentResult) : AggState :=
  results.foldl aggStep initAgg

/-- Stable insertion of one element: the new element goes after every
element `y` with `le y x` (compare result at most zero) and before the
first element that must follow it. -/
def sortInsert (le : α → α → Bool) (x : α) : List α → List α
  | [] => [x]
  | y :: ys => if le y x then y :: sortInsert le x ys else x :: y :: ys

/-- Embedding of Array.prototype.sort with comparator-induced order `le`
(ECMAScript requires the sort to be stable; the stable sorted
permutation is unique, so this left-fold insertion sort is the
semantics). -/
def stableSort (le : α → α → Bool) (l : List α) : List α :=
  l.foldl (fun acc x => sortInsert le x acc) []

/-- Order induced by the comparator `(a, b) => b[1] - a[1]` of
updateMeters: descending by count. -/
def countLe (a b : Str × Nat) : Bool := decide (b.2 ≤ a.2)

/-- Canonical decimal numeral: nonempty, all ASCII digits, and no leading
zero unless the string is exactly "0". -/
def isCanonicalDigits (s : Str) : Bool :=
  !s.isEmpty && s.all (fun c => decide (48 ≤ c.toNat) && decide (c.toNat ≤ 57)) &&
    (decide (s = ['0']) || !decide (s.head? = some '0'))

/-- ECMAScript array-index test: a string property key is an array index
exactly when it is the canonical decimal numeral of an integer below
2^32 - 1.  Ordinary objects enumerate such keys first, in ascending
numeric order, before the other string keys in insertion order. -/
def isArrayIndex (s : Str) : Bool :=
  isCanonicalDigits s && decide (digitsVal s < 4294967295)

/-- Ascending numeric order on array-index keys.  Distinct canonical
numerals have distinct values, so a stable sort by value realizes the
ECMAScript enumeration order of the array-index keys exactly. -/
def idxLe (a b : Str × Nat) : Bool := decide (digitsVal a.1 ≤ digitsVal b.1)

/-- Enumeration order of Object.entries over the concept-count object:
array-index keys in ascending numeric order first, then the remaining
keys in insertion order. -/
def entriesOrder (t : List (Str × Nat)) : List (Str × Nat) :=
  stableSort idxLe (t.filter (fun p => isArrayIndex p.1)) ++
    t.filter (fun p => !isArrayIndex p.1)

/-- Embedding of the return phase of updateMeters (sentiment-meter.ts):
given the already-classified outcomes of the collected batch (the
Promise.all results, whose network production is external) and the
current time, either produce the SentimentData summary or null when no
message was successfully analyzed.  The top-200 table keeps the first
200 entries of the stable descending sort of Object.entries of the
concept counts, which yields array-index keys first in ascending numeric
order and the remaining keys in insertion order.  The table is kept in
the order the top200Concepts rebuild loop inserts it; a later
enumeration of that rebuilt object would again put array-index keys
first, without changing its contents. -/
def updateMeters (results : List SentimentResult) (now : Nat) : Option SentimentData :=
  let st := aggregate results
  if 0 < st.messageCount then
    some
      { timestamp := now
        messageCount := st.messageCount
        happinessAvg := st.happinessSum / (st.messageCount : ℚ)
        sadnessAvg := st.sadnessSum / (st.messageCount : ℚ)
        angerAvg := st.angerSum / (st.messageCount : ℚ)
        fearAvg := st.fearSum / (st.messageCount : ℚ)
        surpriseAvg := st.surpriseSum / (st.messageCount : ℚ)
        disgustAvg := st.disgustSum / (st.messageCount : ℚ)
        topConcepts := (stableSort countLe (entriesOrder st.conceptCounts)).take 200 }
  else none

/-! ## Time-indexed store (sentiment-meter.ts generateHourPrefixes,
getHistoricalMeters; worker/index.ts refreshMeters) -/

/-- Milliseconds per hour: the granularity of the key buckets. -/
def msPerHour : Nat := 3600000

/-- Metadata attached to a stored key by refreshMeters: everything of
SentimentData except timestamp and topConcepts. -/
structure SentimentMeta where
  messageCount : Nat
  happinessAvg : ℚ
  sadnessAvg : ℚ
  angerAvg : ℚ
  fearAvg : ℚ
  surpriseAvg : ℚ
  disgustAvg : ℚ
deriving DecidableEq

/-- One stored KV entry: the key (epoch milliseconds of its ISO string),
the metadata, and the value body (the topConcepts table). -/
structure KVEntry where
  name : Nat
  metadata : Option SentimentMeta
  value : List (Str × Nat)
deriving DecidableEq

/-- A record reconstructed by getHistoricalMeters from a listed key and
its metadata (the source widens it to SentimentData by a cast without a
topConcepts field; it is kept as its own shape here). -/
structure StoredRecord where
  timestamp : Nat
  meta : SentimentMeta
deriving DecidableEq

/-- The while loop of generateHourPrefixes: starting from the floored
start, push one bucket per hour while `current <= end`, stepping one
hour.  A bucket is the first 13 ISO characters, i.e. the hour quotient
of the aligned current value. -/
def hourLoop (current endH : Nat) : List Nat :=
  if current ≤ endH then current / msPerHour :: hourLoop (current + msPerHour) endH else []
termination_by endH + 1 - current
decreasing_by simp only [msPerHour]; omega

/-- Embedding of generateHourPrefixes.  Its two setMinutes(0,0,0) calls
mutate the caller's Date objects, so the embedding returns, along with
the bucket list, the new values of the two Date arguments (both floored
to the start of their hour). -/
def generateHourPrefixes (start endT : Nat) : List Nat × Nat × Nat :=
  let start' := start - start % msPerHour
  let end' := endT - endT % msPerHour
  (hourLoop start' end', start', end')

/-- Order of KV keys (lexicographic on equal-length ISO strings equals
numeric order of their millisecond values). -/
def entryLe (a b : KVEntry) : Bool := decide (a.name ≤ b.name)

/-- All keys of the namespace under one hour bucket, in the lexicographic
key order guaranteed by KV list. -/
def kvListAll (kv : List KVEntry) (bucket : Nat) : List KVEntry :=
  stableSort entryLe (kv.filter (fun e => decide (e.name / msPerHour = bucket)))

/-- The cursor pagination loop of getHistoricalMeters: each list call
returns a page of at most 1000 keys plus a continuation cursor, and
pages are requested until the store reports completion; the loop
delivers the concatenation of the pages. -/
def pagedScan : List KVEntry → List KVEntry
  | [] => []
  | e :: rest => ((e :: rest).take 1000) ++ pagedScan ((e :: rest).drop 1000)
termination_by l => l.length
decreasing_by simp only [List.length_drop, List.length_cons]; omega

/-- Order used by the final `results.sort` of getHistoricalMeters
(localeCompare of equal-length ISO strings is numeric order). -/
def recordLe (a b : StoredRecord) : Bool := decide (a.timestamp ≤ b.timestamp)

/-- Body of the key loop of getHistoricalMeters: a listed key is kept
exactly when it carries metadata and lies inside the exact bounds, and
is rebuilt into a record from its metadata plus its key name. -/
def rangeFilterFun (startIso endIso : Nat) (k : KVEntry) : Option StoredRecord :=
  match k.metadata with
  | some m => if startIso ≤ k.name ∧ k.name ≤ endIso then some ⟨k.name, m⟩ else none
  | none => none

/-- Embedding of getHistoricalMeters: remember both exact bounds before
the Date arguments are mutated, enumerate the hour buckets, page through
every bucket, keep exactly the keys inside the exact bounds that carry
metadata, rebuild a record from metadata plus key, and sort ascending by
timestamp.  The second and third components are the caller-visible final
values of the start and end Date arguments. -/
def getHistoricalMeters (kv : List KVEntry) (start endT : Nat) :
    List StoredRecord × Nat × Nat :=
  let startIso := start
  let endIso := endT
  let pr := generateHourPrefixes start endT
  let results := pr.1.flatMap (fun bucket =>
    (pagedScan (kvListAll kv bucket)).filterMap (rangeFilterFun startIso endIso))
  (stableSort recordLe results, pr.2.1, pr.2.2)

/-- Embedding of KVNamespace.put: overwrite the entry at an existing key,
append a fresh key otherwise. -/
def kvPut (kv : List KVEntry) (key : Nat) (v : List (Str × Nat)) (m : SentimentMeta) :
    List KVEntry :=
  if kv.any (fun e => decide (e.name = key)) then
    kv.map (fun e => if e.name = key then ⟨key, some m, v⟩ else e)
  else kv ++ [⟨key, some m, v⟩]

/-- The metadata refreshMeters attaches to the stored key. -/
def metaOfData (d : SentimentData) : SentimentMeta :=
  ⟨d.messageCount, d.happinessAvg, d.sadnessAvg, d.angerAvg, d.fearAvg,
    d.surpriseAvg, d.disgustAvg⟩

/-- Embedding of refreshMeters (worker/index.ts): run the meter update
and, only when it produced data, store one entry keyed by the timestamp
with the concepts as value and the sentiments as metadata. -/
def refreshMeters (kv : List KVEntry) (results : List SentimentResult) (now : Nat) :
    List KVEntry :=
  match updateMeters results now with
  | some d => kvPut kv d.timestamp d.topConcepts (metaOfData d)
  | none => kv

/-! ## Stream collection (worker/firehose-client.ts, connectToFirehose) -/

/-- Embedding of a FirehosePost. -/
structure FirehosePost where
  text : Str
  did : Str
  collection : Str
  rkey : Str
deriving DecidableEq

/-- State of one collection run: the event counter, whether cleanup has
closed the subscription, and the posts delivered to the onPost
callback. -/
structure FirehoseState where
  eventCount : Nat
  isClosed : Bool
  delivered : List FirehosePost
deriving DecidableEq

/-- Embedding of the per-event handler registered by connectToFirehose:
once closed nothing more happens; otherwise the counter is bumped and,
when an event limit is configured (nonzero, JavaScript truthiness) and
exceeded, the connection is cleaned up and the event dropped; otherwise
the post is delivered to onPost. -/
def handleCreateEvent (eventLimit : Nat) (st : FirehoseState) (post : FirehosePost) :
    FirehoseState :=
  if st.isClosed then st
  else
    let st' : FirehoseState := { st with eventCount := st.eventCount + 1 }
    if eventLimit ≠ 0 ∧ st'.eventCount > eventLimit then { st' with isClosed := true }
    else { st' with delivered := st'.delivered ++ [post] }

/-- A whole collection run: fold the event handler over the finite
sequence of matching stream events arriving before the remote end would
close on its own. -/
def runFirehose (eventLimit : Nat) (events : List FirehosePost) : FirehoseState :=
  events.foldl (handleCreateEvent eventLimit) ⟨0, false, []⟩

/-! ## Aggregation lemmas -/

/-- Whether an outcome is a Success. -/
def isSuccess : SentimentResult → Bool
  | .success _ _ _ _ _ _ _ => true
  | .failure _ => false

/-- Number of Success outcomes in a batch. -/
def numSuccesses (results : List SentimentResult) : Nat :=
  (results.filter isSuccess).length

/-- Happiness scores of the Success outcomes, in batch order. -/
def happinessVals (results : List SentimentResult) : List ℚ :=
  results.filterMap fun r => match r with
    | .success h _ _ _ _ _ _ => some h
    | .failure _ => none

/-- Sadness scores of the Success outcomes, in batch order. -/
def sadnessVals (results : List SentimentResult) : List ℚ :=
  results.filterMap fun r => match r with
    | .success _ v _ _ _ _ _ => some v
    | .failure _ => none

/-- Anger scores of the Success outcomes, in batch order. -/
def angerVals (results : List SentimentResult) : List ℚ :=
  results.filterMap fun r => match r with
    | .success _ _ v _ _ _ _ => some v
    | .failure _ => none

/-- Fear scores of the Success outcomes, in batch order. -/
def fearVals (results : List SentimentResult) : List ℚ :=
  results.filterMap fun r => match r with
    | .success _ _ _ v _ _ _ => some v
    | .failure _ => none

/-- Surprise scores of the Success outcomes, in batch order. -/
def surpriseVals (results : List SentimentResult) : List ℚ :=
  results.filterMap fun r => match r with
    | .success _ _ _ _ v _ _ => some v
    | .failure _ => none

/-- Disgust scores of the Success outcomes, in batch order. -/
def disgustVals (results : List SentimentResult) : List ℚ :=
  results.filterMap fun r => match r with
    | .success _ _ _ _ _ v _ => some v
    | .failure _ => none

/-- All lower-cased concept occurrences of the Success outcomes, in
encounter order. -/
def allConcepts (results : List SentimentResult) : List Str :=
  results.flatMap fun r => match r with
    | .success _ _ _ _ _ _ cs => cs.map lowerStr
    | .failure _ => []

/-- Whether an outcome is the no-sentiment failure. -/
def isNoSentiment : SentimentResult → Bool
  | .failure e => decide (e = some noSentimentStr)
  | .success _ _ _ _ _ _ _ => false

/-- Whether an outcome is a failure other than no-sentiment. -/
def isOtherFailure : SentimentResult → Bool
  | .failure e => !decide (e = some noSentimentStr)
  | .success _ _ _ _ _ _ _ => false

theorem foldl_aggStep_messageCount (l : List SentimentResult) :
    ∀ st : AggState, (l.foldl aggStep st).messageCount = st.messageCount + numSuccesses l := by
  induction l with
  | nil => intro st; simp [numSuccesses]
  | cons r l ih =>
    intro st
    cases r with
    | success h sa an fe su di cs =>
      simp [aggStep, ih, numSuccesses, isSuccess, List.filter]
      omega
    | failure e =>
      by_cases he : e = some noSentimentStr <;>
        simp [aggStep, he, ih, numSuccesses, isSuccess, List.filter]

theorem foldl_aggStep_noSentimentCount (l : List SentimentResult) :
    ∀ st : AggState,
      (l.foldl aggStep st).noSentimentCount = st.noSentimentCount + l.countP isNoSentiment := by
  induction l with
  | nil => intro st; simp
  | cons r l ih =>
    intro st
    cases r with
    | success h sa an fe su di cs => simp [aggStep, ih, isNoSentiment, List.countP_cons]
    | failure e =>
      by_cases he : e = some noSentimentStr <;>
        simp [aggStep, he, ih, isNoSentiment, List.countP_cons] <;> omega

theorem foldl_aggStep_failureCount (l : List SentimentResult) :
    ∀ st : AggState,
      (l.foldl aggStep st).failureCount = st.failureCount + l.countP isOtherFailure := by
  induction l with
  | nil => intro st; simp
  | cons r l ih =>
    intro st
    cases r with
    | success h sa an fe su di cs => simp [aggStep, ih, isOtherFailure, List.countP_cons]
    | failure e =>
      by_cases he : e = some noSentimentStr <;>
        simp [aggStep, he, ih, isOtherFailure, List.countP_cons] <;> omega

theorem foldl_aggStep_happinessSum (l : List SentimentResult) :
    ∀ st : AggState,
      (l.foldl aggStep st).happinessSum = st.happinessSum + (happinessVals l).sum := by
  induction l with
  | nil => intro st; simp [happinessVals]
  | cons r l ih =>
    intro st
    cases r with
    | success h sa an fe su di cs =>
      simp [aggStep, ih, happinessVals]; ring
    | failure e =>
      by_cases he : e = some noSentimentStr <;> simp [aggStep, he, ih, happinessVals]

theorem foldl_aggStep_sadnessSum (l : List SentimentResult) :
    ∀ st : AggState,
      (l.foldl aggStep st).sadnessSum = st.sadnessSum + (sadnessVals l).sum := by
  induction l with
  | nil => intro st; simp [sadnessVals]
  | cons r l ih =>
    intro st
    cases r with
    | success h sa an fe su di cs => simp [aggStep, ih, sadnessVals]; ring
    | failure e =>
      by_cases he : e = some noSentimentStr <;> simp [aggStep, he, ih, sadnessVals]

theorem foldl_aggStep_angerSum (l : List SentimentResult) :
    ∀ st : AggState,
      (l.foldl aggStep st).angerSum = st.angerSum + (angerVals l).sum := by
  induction l with
  | nil => intro st; simp [angerVals]
  | cons r l ih =>
    intro st
    cases r with
    | success h sa an fe su di cs => simp [aggStep, ih, angerVals]; ring
    | failure e =>
      by_cases he : e = some noSentimentStr <;> simp [aggStep, he, ih, angerVals]

theorem foldl_aggStep_fearSum (l : List SentimentResult) :
    ∀ st : AggState,
      (l.foldl aggStep st).fearSum = st.fearSum + (fearVals l).sum := by
  induction l with
  | nil => intro st; simp [fearVals]
  | cons r l ih =>
    intro st
    cases r with
    | success h sa an fe su di cs => simp [aggStep, ih, fearVals]; ring
    | failure e =>
      by_cases he : e = some noSentimentStr <;> simp [aggStep, he, ih, fearVals]

theorem foldl_aggStep_surpriseSum (l : List SentimentResult) :
    ∀ st : AggState,
      (l.foldl aggStep st).surpriseSum = st.surpriseSum + (surpriseVals l).sum := by
  induction l with
  | nil => intro st; simp [surpriseVals]
  | cons r l ih =>
    intro st
    cases r with
    | success h sa an fe su di cs => simp [aggStep, ih, surpriseVals]; ring
    | failure e =>
      by_cases he : e = some noSentimentStr <;> simp [aggStep, he, ih, surpriseVals]

theorem foldl_aggStep_disgustSum (l : List SentimentResult) :
    ∀ st : AggState,
      (l.foldl aggStep st).disgustSum = st.disgustSum + (disgustVals l).sum := by
  induction l with
  | nil => intro st; simp [disgustVals]
  | cons r l ih =>
    intro st
    cases r with
    | success h sa an fe su di cs => simp [aggStep, ih, disgustVals]; ring
    | failure e =>
      by_cases he : e = some noSentimentStr <;> simp [aggStep, he, ih, disgustVals]

theorem foldl_aggStep_conceptCounts (l : List SentimentResult) :
    ∀ st : AggState,
      (l.foldl aggStep st).conceptCounts =
        (allConcepts l).foldl incrConcept st.conceptCounts := by
  induction l with
  | nil => intro st; simp [allConcepts]
  | cons r l ih =>
    intro st
    cases r with
    | success h sa an fe su di cs =>
      simp only [List.foldl_cons, aggStep, allConcepts, List.flatMap_cons, List.foldl_append]
      rw [ih]
      simp [allConcepts, List.foldl_map]
    | failure e =>
      by_cases he : e = some noSentimentStr <;>
        simp [aggStep, he, ih, allConcepts]

/-- C2: with at least one success, each average of the produced summary
is the arithmetic mean of that dimension over exactly the Success
outcomes (so it is independent of how many failures or no-sentiment
outcomes the batch holds and of their order). -/
theorem updateMeters_averages (results : List SentimentResult) (now : Nat)
    (h : 0 < numSuccesses results) :
    ∃ d, updateMeters results now = some d ∧
      d.messageCount = numSuccesses results ∧
      d.happinessAvg = (happinessVals results).sum / (numSuccesses results : ℚ) ∧
      d.sadnessAvg = (sadnessVals results).sum / (numSuccesses results : ℚ) ∧
      d.angerAvg = (angerVals results).sum / (numSuccesses results : ℚ) ∧
      d.fearAvg = (fearVals results).sum / (numSuccesses results : ℚ) ∧
      d.surpriseAvg = (surpriseVals results).sum / (numSuccesses results : ℚ) ∧
      d.disgustAvg = (disgustVals results).sum / (numSuccesses results : ℚ) := by
  have hmc : (aggregate results).messageCount = numSuccesses results := by
    simpa [initAgg, aggregate] using foldl_aggStep_messageCount results initAgg
  have hh : (aggregate results).happinessSum = (happinessVals results).sum := by
    simpa [initAgg, aggregate] using foldl_aggStep_happinessSum results initAgg
  have hsa : (aggregate results).sadnessSum = (sadnessVals results).sum := by
    simpa [initAgg, aggregate] using foldl_aggStep_sadnessSum results initAgg
  have han : (aggregate results).angerSum = (angerVals results).sum := by
    simpa [initAgg, aggregate] using foldl_aggStep_angerSum results initAgg
  have hfe : (aggregate results).fearSum = (fearVals results).sum := by
    simpa [initAgg, aggregate] using foldl_aggStep_fearSum results initAgg
  have hsu : (aggregate results).surpriseSum = (surpriseVals results).sum := by
    simpa [initAgg, aggregate] using foldl_aggStep_surpriseSum results initAgg
  have hdi : (aggregate results).disgustSum = (disgustVals results).sum := by
    simpa [initAgg, aggregate] using foldl_aggStep_disgustSum results initAgg
  unfold updateMeters
  rw [if_pos (by omega : 0 < (aggregate results).messageCount)]
  exact ⟨_, rfl, hmc, by rw [hh, hmc], by rw [hsa, hmc], by rw [han, hmc],
    by rw [hfe, hmc], by rw [hsu, hmc], by rw [hdi, hmc]⟩

/-- C2 witness: the spec scenario, three successes with happiness scores
5, 7, 9 plus failures give happinessAvg 7. -/
theorem updateMeters_averages_witness :
    ∃ d, updateMeters
        [.success 5 0 0 0 0 0 [], .failure (some noSentimentStr),
          .success 7 1 0 0 0 0 [], .failure (some "x".data),
          .success 9 2 0 0 0 0 []] 0 = some d ∧
      d.messageCount = numSuccesses
        [.success 5 0 0 0 0 0 [], .failure (some noSentimentStr),
          .success 7 1 0 0 0 0 [], .failure (some "x".data),
          .success 9 2 0 0 0 0 []] ∧
      d.happinessAvg = (happinessVals
        [.success 5 0 0 0 0 0 [], .failure (some noSentimentStr),
          .success 7 1 0 0 0 0 [], .failure (some "x".data),
          .success 9 2 0 0 0 0 []]).sum / (numSuccesses
        [.success 5 0 0 0 0 0 [], .failure (some noSentimentStr),
          .success 7 1 0 0 0 0 [], .failure (some "x".data),
          .success 9 2 0 0 0 0 []] : ℚ) ∧
      d.sadnessAvg = (sadnessVals
        [.success 5 0 0 0 0 0 [], .failure (some noSentimentStr),
          .success 7 1 0 0 0 0 [], .failure (some "x".data),
          .success 9 2 0 0 0 0 []]).sum / (numSuccesses
        [.success 5 0 0 0 0 0 [], .failure (some noSentimentStr),
          .success 7 1 0 0 0 0 [], .failure (some "x".data),
          .success 9 2 0 0 0 0 []] : ℚ) ∧
      d.angerAvg = 0 / 3 ∧ d.fearAvg = 0 / 3 ∧ d.surpriseAvg = 0 / 3 ∧
      d.disgustAvg = 0 / 3 := by
  have := updateMeters_averages
    [.success 5 0 0 0 0 0 [], .failure (some noSentimentStr),
      .success 7 1 0 0 0 0 [], .failure (some "x".data),
      .success 9 2 0 0 0 0 []] 0 (by decide)
  obtain ⟨d, h1, h2, h3, h4, h5, h6, h7, h8⟩ := this
  exact ⟨d, h1, h2, h3, h4,
    by rw [h5]; norm_num [angerVals, numSuccesses, isSuccess, List.filterMap_cons, List.filter],
    by rw [h6]; norm_num [fearVals, numSuccesses, isSuccess, List.filterMap_cons, List.filter],
    by rw [h7]; norm_num [surpriseVals, numSuccesses, isSuccess, List.filterMap_cons, List.filter],
    by rw [h8]; norm_num [disgustVals, numSuccesses, isSuccess, List.filterMap_cons, List.filter]⟩

/-- C3: with zero successes the aggregation returns none and the store is
left untouched by the refresh run. -/
theorem updateMeters_none_of_no_success (kv : List KVEntry)
    (results : List SentimentResult) (now : Nat) (h : numSuccesses results = 0) :
    updateMeters results now = none ∧ refreshMeters kv results now = kv := by
  have hmc : (aggregate results).messageCount = 0 := by
    have := foldl_aggStep_messageCount results initAgg
    simpa [initAgg, h] using this
  have hnone : updateMeters results now = none := by
    unfold updateMeters
    rw [if_neg (by omega)]
  exact ⟨hnone, by unfold refreshMeters; rw [hnone]⟩

/-- C3 witness: a batch of one no-sentiment failure and one true failure
produces no summary and leaves a one-entry store unchanged. -/
theorem updateMeters_none_of_no_success_witness :
    updateMeters [.failure (some noSentimentStr), .failure none] 0 = none ∧
      refreshMeters [⟨0, none, []⟩] [.failure (some noSentimentStr), .failure none] 0 =
        [⟨0, none, []⟩] :=
  updateMeters_none_of_no_success [⟨0, none, []⟩]
    [.failure (some noSentimentStr), .failure none] 0 (by decide)

/-! ## Stable sort lemmas -/

theorem mem_sortInsert {α : Type*} (le : α → α → Bool) (x : α) (l : List α) (z : α) :
    z ∈ sortInsert le x l ↔ z = x ∨ z ∈ l := by
  induction l with
  | nil => simp [sortInsert]
  | cons y ys ih =>
    cases hle : le y x with
    | true => simp [sortInsert, hle, ih] <;> tauto
    | false => simp [sortInsert, hle] <;> tauto

theorem sortInsert_perm {α : Type*} (le : α → α → Bool) (x : α) (l : List α) :
    (sortInsert le x l).Perm (x :: l) := by
  induction l with
  | nil => simp [sortInsert]
  | cons y ys ih =>
    cases hle : le y x with
    | true =>
      rw [sortInsert, hle, if_pos rfl]
      exact (ih.cons y).trans (List.Perm.swap x y ys)
    | false => simp [sortInsert, hle]

theorem stableSort_perm {α : Type*} (le : α → α → Bool) (l : List α) :
    (stableSort le l).Perm l := by
  have aux : ∀ (l acc : List α),
      (l.foldl (fun acc x => sortInsert le x acc) acc).Perm (acc ++ l) := by
    intro l
    induction l with
    | nil => intro acc; simp
    | cons x l ih =>
      intro acc
      refine (ih (sortInsert le x acc)).trans ?_
      refine ((sortInsert_perm le x acc).append_right l).trans ?_
      exact List.perm_middle.symm
  simpa [stableSort] using aux l []

theorem sortInsert_pairwise {α : Type*} {T : α → α → Prop} (le : α → α → Bool) (x : α)
    (l : List α) (hl : l.Pairwise T)
    (h1 : ∀ y ∈ l, le y x = true → T y x)
    (h2 : ∀ y ∈ l, le y x = false → T x y)
    (h3 : ∀ y ∈ l, ∀ z ∈ l, le y x = false → T y z → T x z) :
    (sortInsert le x l).Pairwise T := by
  induction l with
  | nil => simp [sortInsert]
  | cons y ys ih =>
    rcases List.pairwise_cons.mp hl with ⟨hy, hys⟩
    cases hle : le y x with
    | true =>
      simp only [sortInsert, hle, if_pos]
      refine List.pairwise_cons.mpr ⟨?_, ?_⟩
      · intro z hz
        rcases (mem_sortInsert le x ys z).mp hz with rfl | hz
        · exact h1 y (by simp) hle
        · exact hy z hz
      · exact ih hys (fun a ha hb => h1 a (by simp [ha]) hb)
          (fun a ha hb => h2 a (by simp [ha]) hb)
          (fun a ha b hb hc hd => h3 a (by simp [ha]) b (by simp [hb]) hc hd)
    | false =>
      rw [sortInsert, hle, if_neg (by simp)]
      refine List.pairwise_cons.mpr ⟨?_, hl⟩
      intro z hz
      rcases List.mem_cons.mp hz with rfl | hz'
      · exact h2 z (by simp) hle
      · exact h3 y (by simp) z (by simp [hz']) hle (hy z hz')

theorem stableSort_pairwise {α : Type*} {R : α → α → Prop} (le : α → α → Bool)
    (htrans : ∀ a b c, le a b = true → le b c = true → le a c = true)
    (htotal : ∀ a b, le a b = true ∨ le b a = true)
    (l : List α) (hR : l.Pairwise R) :
    (stableSort le l).Pairwise (fun a b => le a b = true ∧ (le b a = true → R a b)) := by
  have aux : ∀ (l acc : List α),
      acc.Pairwise (fun a b => le a b = true ∧ (le b a = true → R a b)) →
      (∀ a ∈ acc, ∀ b ∈ l, R a b) → l.Pairwise R →
      (l.foldl (fun acc x => sortInsert le x acc) acc).Pairwise
        (fun a b => le a b = true ∧ (le b a = true → R a b)) := by
    intro l
    induction l with
    | nil => intro acc hacc _ _; simpa using hacc
    | cons x l ih =>
      intro acc hacc hcross hRl
      rcases List.pairwise_cons.mp hRl with ⟨hx, hl⟩
      simp only [List.foldl_cons]
      refine ih (sortInsert le x acc) ?_ ?_ hl
      · refine sortInsert_pairwise le x acc hacc ?_ ?_ ?_
        · intro y hy hle
          exact ⟨hle, fun _ => hcross y hy x (by simp)⟩
        · intro y hy hle
          rcases htotal x y with h | h
          · exact ⟨h, fun hyx => absurd hyx (by simp [hle])⟩
          · exact absurd h (by simp [hle])
        · intro y hy z hz hle hTyz
          rcases htotal x y with hxy | hxy
          swap
          · exact absurd hxy (by simp [hle])
          refine ⟨htrans x y z hxy hTyz.1, fun hzx => ?_⟩
          exact absurd (htrans y z x hTyz.1 hzx) (by simp [hle])
      · intro a ha b hb
        rcases (mem_sortInsert le x acc a).mp ha with rfl | ha
        · exact hx b hb
        · exact hcross a ha b (by simp [hb])
  simpa [stableSort] using aux l [] (by simp) (by simp) hR

/-! ## Concept table lemmas -/

/-- Keys of a concept table, in object insertion order. -/
def keysOf (t : List (Str × Nat)) : List Str := t.map Prod.fst

/-- Count stored in the table for a concept (0 when absent). -/
def lookupCount (t : List (Str × Nat)) (c : Str) : Nat :=
  (Option.map Prod.snd (t.find? (fun p => decide (p.1 = c)))).getD 0

/-- The concept frequency table built by folding the object update over a
list of (already lower-cased) concept occurrences. -/
def conceptTable (l : List Str) : List (Str × Nat) := l.foldl incrConcept []

/-- Index of the first occurrence of a concept in the occurrence list. -/
def firstIdx (l : List Str) (c : Str) : Nat :=
  (l.takeWhile (fun x => !decide (x = c))).length

theorem keysOf_cons (k : Str) (n : Nat) (t : List (Str × Nat)) :
    keysOf ((k, n) :: t) = k :: keysOf t := rfl

theorem keysOf_incr_mem (t : List (Str × Nat)) (c : Str) (h : c ∈ keysOf t) :
    keysOf (incrConcept t c) = keysOf t := by
  induction t with
  | nil => simp [keysOf] at h
  | cons p rest ih =>
    obtain ⟨k, n⟩ := p
    by_cases hk : k = c
    · simp [incrConcept, hk, keysOf]
    · have hc : c ∈ keysOf rest := by
        rw [keysOf_cons] at h
        rcases List.mem_cons.mp h with h1 | h1
        · exact absurd h1.symm hk
        · exact h1
      rw [incrConcept, if_neg hk, keysOf_cons, keysOf_cons, ih hc]

theorem keysOf_incr_fresh (t : List (Str × Nat)) (c : Str) (h : c ∉ keysOf t) :
    keysOf (incrConcept t c) = keysOf t ++ [c] := by
  induction t with
  | nil => rfl
  | cons p rest ih =>
    obtain ⟨k, n⟩ := p
    have hk : k ≠ c := by
      intro h'
      exact h (by rw [keysOf_cons, h']; exact List.mem_cons_self c (keysOf rest))
    have hc : c ∉ keysOf rest := fun h' =>
      h (by rw [keysOf_cons]; exact List.mem_cons.mpr (Or.inr h'))
    rw [incrConcept, if_neg hk, keysOf_cons, keysOf_cons, ih hc]
    rfl

theorem lookupCount_incr_self (t : List (Str × Nat)) (c : Str) :
    lookupCount (incrConcept t c) c = lookupCount t c + 1 := by
  induction t with
  | nil =>
    rw [show incrConcept [] c = [(c, 1)] from rfl]
    simp [lookupCount, List.find?_cons_of_pos]
  | cons p rest ih =>
    obtain ⟨k, n⟩ := p
    by_cases hk : k = c
    · subst hk
      rw [incrConcept, if_pos rfl]
      simp [lookupCount, List.find?_cons_of_pos]
    · rw [incrConcept, if_neg hk]
      unfold lookupCount
      rw [List.find?_cons_of_neg _ (by simp [hk]), List.find?_cons_of_neg _ (by simp [hk])]
      exact ih

theorem lookupCount_incr_other (t : List (Str × Nat)) (c k : Str) (hk : k ≠ c) :
    lookupCount (incrConcept t c) k = lookupCount t k := by
  have hck : ¬ (c = k) := fun h => hk h.symm
  induction t with
  | nil =>
    rw [show incrConcept [] c = [(c, 1)] from rfl]
    unfold lookupCount
    rw [List.find?_cons_of_neg _ (by simp [hck])]
  | cons p rest ih =>
    obtain ⟨a, n⟩ := p
    by_cases ha : a = c
    · subst ha
      rw [incrConcept, if_pos rfl]
      unfold lookupCount
      rw [List.find?_cons_of_neg _ (by simp [hck]), List.find?_cons_of_neg _ (by simp [hck])]
    · rw [incrConcept, if_neg ha]
      by_cases hak : a = k
      · subst hak
        unfold lookupCount
        rw [List.find?_cons_of_pos _ (by simp), List.find?_cons_of_pos _ (by simp)]
      · unfold lookupCount
        rw [List.find?_cons_of_neg _ (by simp [hak]), List.find?_cons_of_neg _ (by simp [hak])]
        exact ih

theorem sum_incr (t : List (Str × Nat)) (c : Str) :
    ((incrConcept t c).map Prod.snd).sum = (t.map Prod.snd).sum + 1 := by
  induction t with
  | nil => simp [incrConcept]
  | cons p rest ih =>
    obtain ⟨k, n⟩ := p
    by_cases hk : k = c
    · simp [incrConcept, hk]; omega
    · simp [incrConcept, hk, ih]; omega

theorem mem_iff_lookup (t : List (Str × Nat)) (hnd : (keysOf t).Nodup) (k : Str) (n : Nat) :
    (k, n) ∈ t ↔ k ∈ keysOf t ∧ n = lookupCount t k := by
  induction t with
  | nil => simp [keysOf, lookupCount]
  | cons p rest ih =>
    obtain ⟨a, m⟩ := p
    rw [keysOf_cons] at hnd
    have hnd2 := List.nodup_cons.mp hnd
    have hfst : a ∉ keysOf rest := hnd2.1
    have hnd' : (keysOf rest).Nodup := hnd2.2
    have hskip : ∀ j : Str, a ≠ j →
        lookupCount ((a, m) :: rest) j = lookupCount rest j := by
      intro j hj
      unfold lookupCount
      rw [List.find?_cons_of_neg _ (by simp [hj])]
    by_cases hak : a = k
    · subst hak
      constructor
      · intro hmem
        rcases List.mem_cons.mp hmem with heq | hmem'
        · injection heq with h1 h2
          subst h2
          refine ⟨List.mem_cons_self a (keysOf rest), ?_⟩
          unfold lookupCount
          rw [List.find?_cons_of_pos _ (by simp)]
          rfl
        · exact absurd (List.mem_map_of_mem Prod.fst hmem') hfst
      · rintro ⟨-, rfl⟩
        unfold lookupCount
        rw [List.find?_cons_of_pos _ (by simp)]
        exact List.mem_cons_self _ _
    · rw [keysOf_cons]
      constructor
      · intro hmem
        rcases List.mem_cons.mp hmem with heq | hmem'
        · injection heq with h1 h2
          exact absurd h1.symm hak
        · rcases (ih hnd').mp hmem' with ⟨h1, h2⟩
          exact ⟨List.mem_cons.mpr (Or.inr h1), by rw [hskip k hak]; exact h2⟩
      · rintro ⟨h1, h2⟩
        have h1' : k ∈ keysOf rest := by
          rcases List.mem_cons.mp h1 with h | h
          · exact absurd h.symm hak
          · exact h
        refine List.mem_cons.mpr (Or.inr ((ih hnd').mpr ⟨h1', ?_⟩))
        rw [hskip k hak] at h2
        exact h2

theorem conceptTable_append_one (l : List Str) (c : Str) :
    conceptTable (l ++ [c]) = incrConcept (conceptTable l) c := by
  simp [conceptTable, List.foldl_append]

theorem ct_mem_keys (l : List Str) : ∀ c, c ∈ keysOf (conceptTable l) ↔ c ∈ l := by
  induction l using List.reverseRecOn with
  | nil => simp [conceptTable, keysOf]
  | append_singleton l a ih =>
    intro c
    rw [conceptTable_append_one]
    by_cases ha : a ∈ keysOf (conceptTable l)
    · rw [keysOf_incr_mem _ _ ha]
      have haa : a ∈ l := (ih a).mp ha
      rw [ih c]
      simp only [List.mem_append, List.mem_singleton]
      constructor
      · exact Or.inl
      · rintro (h | rfl)
        · exact h
        · exact haa
    · rw [keysOf_incr_fresh _ _ ha]
      simp [ih c]

theorem ct_keys_nodup (l : List Str) : (keysOf (conceptTable l)).Nodup := by
  induction l using List.reverseRecOn with
  | nil => simp [conceptTable, keysOf]
  | append_singleton l a ih =>
    rw [conceptTable_append_one]
    by_cases ha : a ∈ keysOf (conceptTable l)
    · rw [keysOf_incr_mem _ _ ha]; exact ih
    · rw [keysOf_incr_fresh _ _ ha]
      simpa [List.nodup_append, ih] using ha

theorem ct_lookup (l : List Str) (c : Str) :
    lookupCount (conceptTable l) c = l.count c := by
  induction l using List.reverseRecOn with
  | nil => simp [conceptTable, lookupCount]
  | append_singleton l a ih =>
    rw [conceptTable_append_one]
    by_cases hac : c = a
    · subst hac
      rw [lookupCount_incr_self, ih]
      simp [List.count_append]
    · rw [lookupCount_incr_other _ _ _ hac, ih]
      simp [List.count_append, List.count_singleton, hac,
        fun h : a = c => hac h.symm]

theorem ct_sum (l : List Str) : ((conceptTable l).map Prod.snd).sum = l.length := by
  induction l using List.reverseRecOn with
  | nil => simp [conceptTable]
  | append_singleton l a ih =>
    rw [conceptTable_append_one, sum_incr, ih]
    simp

theorem ct_mem (l : List Str) (p : Str × Nat) :
    p ∈ conceptTable l ↔ p.1 ∈ l ∧ p.2 = l.count p.1 := by
  obtain ⟨k, n⟩ := p
  rw [mem_iff_lookup _ (ct_keys_nodup l), ct_mem_keys, ct_lookup]

theorem ct_length (l : List Str) : (conceptTable l).length = l.toFinset.card := by
  have hkeys : (keysOf (conceptTable l)).toFinset = l.toFinset := by
    ext c
    simp [List.mem_toFinset, ct_mem_keys]
  have : (keysOf (conceptTable l)).length = (keysOf (conceptTable l)).toFinset.card :=
    (List.toFinset_card_of_nodup (ct_keys_nodup l)).symm
  calc (conceptTable l).length = (keysOf (conceptTable l)).length := by simp [keysOf]
    _ = (keysOf (conceptTable l)).toFinset.card := this
    _ = l.toFinset.card := by rw [hkeys]

theorem firstIdx_append_left (l t : List Str) (c : Str) (h : c ∈ l) :
    firstIdx (l ++ t) c = firstIdx l c := by
  induction l with
  | nil => simp at h
  | cons a l ih =>
    by_cases hac : a = c
    · simp [firstIdx, hac]
    · have hc : c ∈ l := by
        rcases List.mem_cons.mp h with h1 | h1
        · exact absurd h1.symm hac
        · exact h1
      simp only [firstIdx, List.cons_append, List.takeWhile_cons]
      rw [if_pos (by simp [hac]), if_pos (by simp [hac])]
      simp only [List.length_cons]
      exact congrArg (· + 1) (ih hc)

theorem firstIdx_lt_length (l : List Str) (c : Str) (h : c ∈ l) :
    firstIdx l c < l.length := by
  induction l with
  | nil => simp at h
  | cons a l ih =>
    by_cases hac : a = c
    · simp [firstIdx, hac]
    · have hc : c ∈ l := by
        rcases List.mem_cons.mp h with h1 | h1
        · exact absurd h1.symm hac
        · exact h1
      simp only [firstIdx, List.takeWhile_cons]
      rw [if_pos (by simp [hac])]
      simp only [List.length_cons]
      exact Nat.succ_lt_succ (ih hc)

theorem firstIdx_append_self (l : List Str) (c : Str) (h : c ∉ l) :
    firstIdx (l ++ [c]) c = l.length := by
  induction l with
  | nil => simp [firstIdx]
  | cons a l ih =>
    have ha : a ≠ c := fun h' => h (by simp [h'])
    simp only [firstIdx, List.cons_append, List.takeWhile_cons]
    rw [if_pos (by simp [ha])]
    simp only [List.length_cons]
    exact congrArg (· + 1) (ih (fun h' => h (by simp [h'])))

theorem ct_order (l : List Str) :
    (keysOf (conceptTable l)).Pairwise (fun a b => firstIdx l a < firstIdx l b) := by
  induction l using List.reverseRecOn with
  | nil => simp [conceptTable, keysOf]
  | append_singleton l a ih =>
    rw [conceptTable_append_one]
    by_cases ha : a ∈ keysOf (conceptTable l)
    · rw [keysOf_incr_mem _ _ ha]
      refine ih.imp_of_mem ?_
      intro x y hx hy hxy
      rw [firstIdx_append_left _ _ _ ((ct_mem_keys l x).mp hx),
        firstIdx_append_left _ _ _ ((ct_mem_keys l y).mp hy)]
      exact hxy
    · rw [keysOf_incr_fresh _ _ ha]
      rw [List.pairwise_append]
      refine ⟨ih.imp_of_mem ?_, by simp, ?_⟩
      · intro x y hx hy hxy
        rw [firstIdx_append_left _ _ _ ((ct_mem_keys l x).mp hx),
          firstIdx_append_left _ _ _ ((ct_mem_keys l y).mp hy)]
        exact hxy
      · intro x hx y hy
        rcases List.mem_singleton.mp hy with rfl
        have hxl : x ∈ l := (ct_mem_keys l x).mp hx
        rw [firstIdx_append_left _ _ _ hxl,
          firstIdx_append_self _ _ (fun h => ha ((ct_mem_keys l y).mpr h))]
        exact firstIdx_lt_length l x hxl

/-! ### Object.entries enumeration order -/

theorem foldl_digits (s : Str) : ∀ acc : Nat,
    s.foldl (fun a c => a * 10 + (c.toNat - 48)) acc =
      acc * 10 ^ s.length + digitsVal s := by
  induction s with
  | nil => intro acc; simp [digitsVal]
  | cons c s ih =>
    intro acc
    have hd : digitsVal (c :: s) = (c.toNat - 48) * 10 ^ s.length + digitsVal s := by
      have h0 : digitsVal (c :: s) =
          s.foldl (fun a c => a * 10 + (c.toNat - 48)) (0 * 10 + (c.toNat - 48)) := rfl
      rw [h0, ih (0 * 10 + (c.toNat - 48))]
      ring
    calc (c :: s).foldl (fun a c => a * 10 + (c.toNat - 48)) acc
        = s.foldl (fun a c => a * 10 + (c.toNat - 48)) (acc * 10 + (c.toNat - 48)) := rfl
      _ = (acc * 10 + (c.toNat - 48)) * 10 ^ s.length + digitsVal s := ih _
      _ = acc * 10 ^ (c :: s).length + digitsVal (c :: s) := by
          rw [hd, List.length_cons]; ring

theorem digitsVal_cons (c : Char) (s : Str) :
    digitsVal (c :: s) = (c.toNat - 48) * 10 ^ s.length + digitsVal s := by
  have h0 : digitsVal (c :: s) =
      s.foldl (fun a c => a * 10 + (c.toNat - 48)) (0 * 10 + (c.toNat - 48)) := rfl
  rw [h0, foldl_digits s (0 * 10 + (c.toNat - 48))]
  ring

theorem digitsVal_lt (s : Str) (h : ∀ c ∈ s, c.toNat ≤ 57) :
    digitsVal s < 10 ^ s.length := by
  induction s with
  | nil => simp [digitsVal]
  | cons c s ih =>
    rw [digitsVal_cons, List.length_cons]
    have h1 : c.toNat - 48 ≤ 9 := by have := h c (by simp); omega
    have h2 : digitsVal s < 10 ^ s.length := ih (fun x hx => h x (by simp [hx]))
    calc (c.toNat - 48) * 10 ^ s.length + digitsVal s
        ≤ 9 * 10 ^ s.length + digitsVal s :=
          Nat.add_le_add_right (mul_le_mul_right' h1 _) _
      _ < 10 ^ (s.length + 1) := by rw [pow_succ]; omega

theorem mul_pow_add_inj (P x y u v : Nat) (hu : u < P) (hv : v < P)
    (h : x * P + u = y * P + v) : x = y ∧ u = v := by
  rcases Nat.lt_trichotomy x y with hlt | rfl | hgt
  · have h1 : (x + 1) * P ≤ y * P := mul_le_mul_right' (by omega) P
    have h2 : (x + 1) * P = x * P + P := by ring
    omega
  · omega
  · have h1 : (y + 1) * P ≤ x * P := mul_le_mul_right' (by omega) P
    have h2 : (y + 1) * P = y * P + P := by ring
    omega

theorem char_toNat_inj {c d : Char} (h : c.toNat = d.toNat) : c = d :=
  Char.ext (UInt32.ext h)

theorem digitsVal_inj_of_length (a : Str) : ∀ b : Str, a.length = b.length →
    (∀ c ∈ a, 48 ≤ c.toNat ∧ c.toNat ≤ 57) →
    (∀ c ∈ b, 48 ≤ c.toNat ∧ c.toNat ≤ 57) →
    digitsVal a = digitsVal b → a = b := by
  induction a with
  | nil =>
    intro b hlen _ _ _
    have hb : b.length = 0 := by simpa using hlen.symm
    exact (List.length_eq_zero.mp hb).symm
  | cons c a ih =>
    intro b hlen hda hdb hv
    cases b with
    | nil => simp at hlen
    | cons d b =>
      simp only [List.length_cons] at hlen
      have hlen' : a.length = b.length := by omega
      rw [digitsVal_cons, digitsVal_cons, hlen'] at hv
      have hva : digitsVal a < 10 ^ b.length := by
        rw [← hlen']
        exact digitsVal_lt a (fun x hx => (hda x (by simp [hx])).2)
      have hvb : digitsVal b < 10 ^ b.length :=
        digitsVal_lt b (fun x hx => (hdb x (by simp [hx])).2)
      obtain ⟨hxy, huv⟩ := mul_pow_add_inj (10 ^ b.length) _ _ _ _ hva hvb hv
      have hc : c = d := by
        apply char_toNat_inj
        have h1 := (hda c (by simp)).1
        have h2 := (hdb d (by simp)).1
        omega
      rw [hc,
        ih b hlen' (fun x hx => hda x (by simp [hx])) (fun x hx => hdb x (by simp [hx])) huv]

theorem digitsVal_head_ge (c : Char) (s : Str) (hc : 49 ≤ c.toNat) :
    10 ^ s.length ≤ digitsVal (c :: s) := by
  rw [digitsVal_cons]
  have h1 : 1 * 10 ^ s.length ≤ (c.toNat - 48) * 10 ^ s.length :=
    mul_le_mul_right' (by omega) _
  omega

theorem canonical_spec (s : Str) (h : isCanonicalDigits s = true) :
    s ≠ [] ∧ (∀ c ∈ s, 48 ≤ c.toNat ∧ c.toNat ≤ 57) ∧
      (s = ['0'] ∨ s.head? ≠ some '0') := by
  unfold isCanonicalDigits at h
  rw [Bool.and_eq_true, Bool.and_eq_true] at h
  obtain ⟨⟨h1, h2⟩, h3⟩ := h
  refine ⟨?_, ?_, ?_⟩
  · intro hnil
    subst hnil
    simp at h1
  · intro c hc
    have := List.all_eq_true.mp h2 c hc
    rw [Bool.and_eq_true, decide_eq_true_eq, decide_eq_true_eq] at this
    exact this
  · rw [Bool.or_eq_true, decide_eq_true_eq, Bool.not_eq_true',
      decide_eq_false_iff_not] at h3
    exact h3

theorem digitsVal_lt_of_length_lt (x y : Str)
    (hx : isCanonicalDigits x = true) (hy : isCanonicalDigits y = true)
    (hlen : x.length < y.length) : digitsVal x < digitsVal y := by
  obtain ⟨hx0, hxd, _⟩ := canonical_spec x hx
  obtain ⟨hy0, hyd, hyc⟩ := canonical_spec y hy
  cases y with
  | nil => exact absurd rfl hy0
  | cons d y =>
    have hxlen : 1 ≤ x.length := by
      cases x with
      | nil => exact absurd rfl hx0
      | cons _ _ => simp
    have hylen : 2 ≤ (d :: y).length := by
      simp only [List.length_cons] at hlen ⊢
      omega
    have hd49 : 49 ≤ d.toNat := by
      have hd48 := (hyd d (by simp)).1
      have hne : d ≠ '0' := by
        rcases hyc with h01 | h0h
        · exfalso
          rw [h01] at hylen
          simp at hylen
        · intro hdeq
          exact h0h (by rw [hdeq]; rfl)
      have h48 : d.toNat ≠ 48 := by
        intro h48
        exact hne (char_toNat_inj (by rw [h48]; rfl))
      omega
    have h1 : 10 ^ y.length ≤ digitsVal (d :: y) := digitsVal_head_ge d y hd49
    have h2 : digitsVal x < 10 ^ x.length :=
      digitsVal_lt x (fun c hc => (hxd c hc).2)
    have h3 : 10 ^ x.length ≤ 10 ^ y.length :=
      Nat.pow_le_pow_right (by omega)
        (by simp only [List.length_cons] at hlen; omega)
    omega

/-- A canonical decimal numeral is recovered from its value: distinct
canonical strings denote distinct numbers, so ascending value order is a
total strict order on the array-index keys. -/
theorem digitsVal_inj (x y : Str)
    (hx : isCanonicalDigits x = true) (hy : isCanonicalDigits y = true)
    (hv : digitsVal x = digitsVal y) : x = y := by
  rcases Nat.lt_trichotomy x.length y.length with hlt | heq | hgt
  · exact absurd hv (Nat.ne_of_lt (digitsVal_lt_of_length_lt x y hx hy hlt))
  · exact digitsVal_inj_of_length x y heq (canonical_spec x hx).2.1
      (canonical_spec y hy).2.1 hv
  · exact absurd hv.symm (Nat.ne_of_lt (digitsVal_lt_of_length_lt y x hy hx hgt))

theorem entriesOrder_perm (t : List (Str × Nat)) : (entriesOrder t).Perm t := by
  unfold entriesOrder
  exact ((stableSort_perm idxLe _).append (List.Perm.refl _)).trans
    (List.filter_append_perm _ t)

/-- The relative enumeration position of two distinct keys of the concept
object, as Object.entries yields them: an array-index key precedes every
non-index key and a smaller-valued index key precedes a larger one, while
two non-index keys keep their insertion order, i.e. the order of their
first occurrences in the lower-cased concept stream `occ`. -/
def entryPrec (occ : List Str) (a b : Str) : Prop :=
  (isArrayIndex a = true ∧ isArrayIndex b = true ∧ digitsVal a < digitsVal b) ∨
  (isArrayIndex a = true ∧ isArrayIndex b = false) ∨
  (isArrayIndex a = false ∧ isArrayIndex b = false ∧ firstIdx occ a < firstIdx occ b)

/-- The Object.entries view of the concept table is ordered by
enumeration position throughout. -/
theorem entriesOrder_pairwise (occ : List Str) :
    (entriesOrder (conceptTable occ)).Pairwise
      (fun a b : Str × Nat => entryPrec occ a.1 b.1) := by
  have hne : (conceptTable occ).Pairwise (fun a b : Str × Nat => a.1 ≠ b.1) := by
    have h0 := ct_keys_nodup occ
    unfold keysOf at h0
    exact (@List.pairwise_map (Str × Nat) Str Prod.fst (fun a b => a ≠ b)
      (conceptTable occ)).mp h0
  have hfi : (conceptTable occ).Pairwise
      (fun a b : Str × Nat => firstIdx occ a.1 < firstIdx occ b.1) := by
    have h0 := ct_order occ
    unfold keysOf at h0
    exact (@List.pairwise_map (Str × Nat) Str Prod.fst
      (fun a b => firstIdx occ a < firstIdx occ b) (conceptTable occ)).mp h0
  have htrans : ∀ a b c : Str × Nat,
      idxLe a b = true → idxLe b c = true → idxLe a c = true := by
    intro a b c
    simp only [idxLe, decide_eq_true_eq]
    omega
  have htotal : ∀ a b : Str × Nat, idxLe a b = true ∨ idxLe b a = true := by
    intro a b
    simp only [idxLe, decide_eq_true_eq]
    omega
  have hsorted := stableSort_pairwise idxLe htrans htotal
    ((conceptTable occ).filter (fun p => isArrayIndex p.1))
    (hne.filter (fun p => isArrayIndex p.1))
  unfold entriesOrder
  rw [List.pairwise_append]
  refine ⟨?_, ?_, ?_⟩
  · refine hsorted.imp_of_mem ?_
    intro a b ha hb hab
    have hai : isArrayIndex a.1 = true :=
      (List.mem_filter.mp ((stableSort_perm idxLe _).mem_iff.mp ha)).2
    have hbi : isArrayIndex b.1 = true :=
      (List.mem_filter.mp ((stableSort_perm idxLe _).mem_iff.mp hb)).2
    obtain ⟨h1, h2⟩ := hab
    simp only [idxLe, decide_eq_true_eq] at h1 h2
    rcases Nat.lt_or_ge (digitsVal a.1) (digitsVal b.1) with hlt | hge
    · exact Or.inl ⟨hai, hbi, hlt⟩
    · exfalso
      have hv : digitsVal a.1 = digitsVal b.1 := Nat.le_antisymm h1 hge
      have hca : isCanonicalDigits a.1 = true := by
        have h := hai
        unfold isArrayIndex at h
        rw [Bool.and_eq_true] at h
        exact h.1
      have hcb : isCanonicalDigits b.1 = true := by
        have h := hbi
        unfold isArrayIndex at h
        rw [Bool.and_eq_true] at h
        exact h.1
      exact h2 hge (digitsVal_inj a.1 b.1 hca hcb hv)
  · refine (hfi.filter (fun p => !isArrayIndex p.1)).imp_of_mem ?_
    intro a b ha hb hab
    have hai : isArrayIndex a.1 = false := by
      simpa using (List.mem_filter.mp ha).2
    have hbi : isArrayIndex b.1 = false := by
      simpa using (List.mem_filter.mp hb).2
    exact Or.inr (Or.inr ⟨hai, hbi, hab⟩)
  · intro a ha b hb
    have hai : isArrayIndex a.1 = true :=
      (List.mem_filter.mp ((stableSort_perm idxLe _).mem_iff.mp ha)).2
    have hbi : isArrayIndex b.1 = false := by
      simpa using (List.mem_filter.mp hb).2
    exact Or.inr (Or.inl ⟨hai, hbi⟩)

/-- C4 counterexample: in a batch whose lower-cased concepts are b then 7,
both concepts occur once and b occurs first, yet the produced table lists
"7" before "b" — Object.entries enumerates the array-index key "7" before
the insertion-ordered key "b" and the stable sort keeps that order on the
count tie — so the first-occurrence tie-break the spec claims fails on
the actual output. -/
theorem updateMeters_tie_order_counterexample :
    (updateMeters [.success 0 0 0 0 0 0 ["b".data, "7".data]] 0).map
        (fun d => d.topConcepts) = some [("7".data, 1), ("b".data, 1)] ∧
      firstIdx (allConcepts [.success 0 0 0 0 0 0 ["b".data, "7".data]]) "b".data <
        firstIdx (allConcepts [.success 0 0 0 0 0 0 ["b".data, "7".data]]) "7".data ∧
      ¬ ([(("7".data : Str), 1), ("b".data, 1)] :
          List (Str × Nat)).Pairwise (fun a b => b.2 ≤ a.2 ∧
            (a.2 = b.2 →
              firstIdx (allConcepts [.success 0 0 0 0 0 0 ["b".data, "7".data]]) a.1 <
                firstIdx (allConcepts [.success 0 0 0 0 0 0 ["b".data, "7".data]]) b.1)) := by
  refine ⟨?_, ?_, ?_⟩ <;> decide

/-- C4, corrected: with at least one success, the topConcepts table has at
most 200 entries; when there are at most 200 distinct lower-cased
concepts, its entries are exactly the occurring concepts with their exact
occurrence counts; and it is ordered by count descending — already before
truncation since the truncation keeps a prefix — but with ties broken by
the Object.entries enumeration order of the count object (array-index
concept keys first in ascending numeric order, then the remaining
concepts in first-occurrence order), not by first occurrence alone. -/
theorem updateMeters_topConcepts (results : List SentimentResult) (now : Nat)
    (h : 0 < numSuccesses results) :
    ∃ d, updateMeters results now = some d ∧
      d.topConcepts.length ≤ 200 ∧
      ((allConcepts results).toFinset.card ≤ 200 →
        ∀ p : Str × Nat, p ∈ d.topConcepts ↔
          (p.1 ∈ allConcepts results ∧ p.2 = (allConcepts results).count p.1)) ∧
      d.topConcepts.Pairwise (fun a b => b.2 ≤ a.2 ∧
        (a.2 = b.2 → entryPrec (allConcepts results) a.1 b.1)) := by
  have hmc : (aggregate results).messageCount = numSuccesses results := by
    simpa [aggregate, initAgg] using foldl_aggStep_messageCount results initAgg
  have hpos : 0 < (aggregate results).messageCount := by omega
  have htable : (aggregate results).conceptCounts = conceptTable (allConcepts results) := by
    simpa [aggregate, initAgg, conceptTable] using foldl_aggStep_conceptCounts results initAgg
  unfold updateMeters
  rw [if_pos hpos]
  refine ⟨_, rfl, ?_, ?_, ?_⟩
  · simp only [List.length_take]
    omega
  · intro hcard p
    simp only [htable]
    have hlen : (conceptTable (allConcepts results)).length ≤ 200 := by
      rw [ct_length]; exact hcard
    have hslen :
        (stableSort countLe
          (entriesOrder (conceptTable (allConcepts results)))).length ≤ 200 := by
      rw [(stableSort_perm countLe _).length_eq, (entriesOrder_perm _).length_eq]
      exact hlen
    rw [List.take_of_length_le hslen, (stableSort_perm countLe _).mem_iff,
      (entriesOrder_perm _).mem_iff]
    exact ct_mem _ p
  · simp only [htable]
    have htrans : ∀ a b c : Str × Nat,
        countLe a b = true → countLe b c = true → countLe a c = true := by
      intro a b c
      simp only [countLe, decide_eq_true_eq]
      omega
    have htotal : ∀ a b : Str × Nat, countLe a b = true ∨ countLe b a = true := by
      intro a b
      simp only [countLe, decide_eq_true_eq]
      omega
    have hR := entriesOrder_pairwise (allConcepts results)
    have hpw := stableSort_pairwise countLe htrans htotal _ hR
    refine List.Pairwise.sublist (List.take_sublist 200 _) (hpw.imp ?_)
    rintro a b ⟨h1, h2⟩
    refine ⟨by simpa [countLe] using h1, fun he => h2 ?_⟩
    rw [show countLe b a = decide (a.2 ≤ b.2) from rfl, he]
    simp

/-- C4 witness: one success whose lower-cased concepts are b, 7, b: b is
counted twice and listed first on count alone, the array-index key 7
follows, and the instantiated corrected claim holds. -/
theorem updateMeters_topConcepts_witness :
    ∃ d, updateMeters [.success 1 2 3 4 5 6 ["b".data, "7".data, "b".data]] 0 = some d ∧
      d.topConcepts.length ≤ 200 ∧
      ((allConcepts [.success 1 2 3 4 5 6 ["b".data, "7".data, "b".data]]).toFinset.card ≤ 200 →
        ∀ p : Str × Nat, p ∈ d.topConcepts ↔
          (p.1 ∈ allConcepts [.success 1 2 3 4 5 6 ["b".data, "7".data, "b".data]] ∧
            p.2 = (allConcepts [.success 1 2 3 4 5 6 ["b".data, "7".data, "b".data]]).count p.1)) ∧
      d.topConcepts.Pairwise (fun a b => b.2 ≤ a.2 ∧
        (a.2 = b.2 →
          entryPrec (allConcepts [.success 1 2 3 4 5 6 ["b".data, "7".data, "b".data]])
            a.1 b.1)) :=
  updateMeters_topConcepts [.success 1 2 3 4 5 6 ["b".data, "7".data, "b".data]] 0 (by decide)

/-- Concepts carried by an outcome (empty for failures). -/
def conceptsOf : SentimentResult → List Str
  | .success _ _ _ _ _ _ cs => cs
  | .failure _ => []

theorem allConcepts_length_le (results : List SentimentResult)
    (hcap : ∀ r ∈ results, (conceptsOf r).length ≤ 3) :
    (allConcepts results).length ≤ 3 * numSuccesses results := by
  induction results with
  | nil => simp [allConcepts, numSuccesses]
  | cons r rs ih =>
    have hcr := hcap r (by simp)
    have ih' := ih (fun x hx => hcap x (by simp [hx]))
    cases r with
    | success h1 h2 h3 h4 h5 h6 cs =>
      simp only [conceptsOf] at hcr
      simp [allConcepts, numSuccesses, isSuccess, List.filter_cons] at ih' ⊢
      omega
    | failure e =>
      simp [allConcepts, numSuccesses, isSuccess, List.filter_cons] at ih' ⊢
      omega

theorem sum_take_le (n : Nat) (l : List (Str × Nat)) :
    ((l.take n).map Prod.snd).sum ≤ (l.map Prod.snd).sum := by
  conv_rhs => rw [← List.take_append_drop n l]
  rw [List.map_append, List.sum_append]
  exact Nat.le_add_right _ _

/-- C8 counterexample: the parser happily returns four concepts from a
single reply, and the resulting summary has concept counts summing to 4
while messageCount is 1, violating the claimed bound of messageCount
times three. -/
theorem updateMeters_concept_cap_counterexample :
    (updateMeters
        [parseSentimentResponse
          "happiness:1\nsadness:0\nanger:0\nfear:0\nsurprise:0\ndisgust:0\nconcepts:a,b,c,d".data]
        0).map (fun d => ((d.topConcepts.map Prod.snd).sum, d.messageCount)) =
      some (4, 1) ∧ ¬ (4 ≤ 1 * 3) := by
  constructor
  · decide
  · decide

/-- C8 amended: when every Success outcome carries at most 3 concepts (as
the classifier contract requests, though the parser does not enforce
it), the counts in topConcepts sum to at most messageCount times 3. -/
theorem updateMeters_concept_sum_bound (results : List SentimentResult) (now : Nat)
    (d : SentimentData)
    (hcap : ∀ r ∈ results, (conceptsOf r).length ≤ 3)
    (hd : updateMeters results now = some d) :
    (d.topConcepts.map Prod.snd).sum ≤ d.messageCount * 3 := by
  have hmc : (aggregate results).messageCount = numSuccesses results := by
    simpa [aggregate, initAgg] using foldl_aggStep_messageCount results initAgg
  have htable : (aggregate results).conceptCounts = conceptTable (allConcepts results) := by
    simpa [aggregate, initAgg, conceptTable] using foldl_aggStep_conceptCounts results initAgg
  unfold updateMeters at hd
  by_cases hpos : 0 < (aggregate results).messageCount
  · rw [if_pos hpos] at hd
    have hdd := Option.some.inj hd
    subst hdd
    simp only [htable]
    have h1 := sum_take_le 200
      (stableSort countLe (entriesOrder (conceptTable (allConcepts results))))
    have h2 : ((stableSort countLe
          (entriesOrder (conceptTable (allConcepts results)))).map Prod.snd).sum =
        ((conceptTable (allConcepts results)).map Prod.snd).sum :=
      (((stableSort_perm countLe _).trans (entriesOrder_perm _)).map Prod.snd).sum_eq
    have h3 := ct_sum (allConcepts results)
    have h4 := allConcepts_length_le results hcap
    simp only [hmc]
    omega
  · rw [if_neg hpos] at hd
    exact absurd hd (by simp)

/-- Data produced by the amended-C8 witness batch. -/
def capWitnessData : SentimentData :=
  ⟨0, 1, 0, 0, 0, 0, 0, 0, [("a".data, 1)]⟩

/-- C8 amended witness: a one-success batch with one concept satisfies the
cap hypothesis and the bound. -/
theorem updateMeters_concept_sum_bound_witness :
    (∀ r ∈ [SentimentResult.success 0 0 0 0 0 0 ["a".data]], (conceptsOf r).length ≤ 3) ∧
      (capWitnessData.topConcepts.map Prod.snd).sum ≤ capWitnessData.messageCount * 3 :=
  ⟨by decide,
    updateMeters_concept_sum_bound [.success 0 0 0 0 0 0 ["a".data]] 0 capWitnessData
      (by decide)
      (by simp [updateMeters, aggregate, aggStep, initAgg, incrConcept, lowerStr,
        entriesOrder, isArrayIndex, isCanonicalDigits, idxLe,
        stableSort, sortInsert, capWitnessData])⟩

/-! ## Stream collection lemmas -/

theorem foldl_handle_closed (eventLimit : Nat) (events : List FirehosePost)
    (st : FirehoseState) (h : st.isClosed = true) :
    events.foldl (handleCreateEvent eventLimit) st = st := by
  induction events with
  | nil => rfl
  | cons e rest ih =>
    rw [List.foldl_cons, show handleCreateEvent eventLimit st e = st from by
      simp [handleCreateEvent, h]]
    exact ih

theorem foldl_handle_delivered (N : Nat) (events : List FirehosePost) :
    ∀ (c : Nat) (acc : List FirehosePost), 0 < N → c ≤ N →
      (events.foldl (handleCreateEvent N) ⟨c, false, acc⟩).delivered =
        acc ++ events.take (N - c) := by
  induction events with
  | nil => intro c acc _ _; simp
  | cons e rest ih =>
    intro c acc hN hc
    by_cases hcN : c + 1 ≤ N
    · have hstep : handleCreateEvent N ⟨c, false, acc⟩ e = ⟨c + 1, false, acc ++ [e]⟩ := by
        simp only [handleCreateEvent, Bool.false_eq_true, if_false]
        rw [if_neg (by omega : ¬ (N ≠ 0 ∧ c + 1 > N))]
      rw [List.foldl_cons, hstep, ih (c + 1) (acc ++ [e]) hN hcN,
        show N - c = (N - (c + 1)) + 1 from by omega]
      simp [List.take_succ_cons]
    · have hstep : handleCreateEvent N ⟨c, false, acc⟩ e = ⟨c + 1, true, acc⟩ := by
        simp only [handleCreateEvent, Bool.false_eq_true, if_false]
        rw [if_pos (by omega : N ≠ 0 ∧ c + 1 > N)]
      rw [List.foldl_cons, hstep, foldl_handle_closed _ _ _ rfl]
      simp [show N - c = 0 from by omega]

/-- C9: with a configured event-count ceiling N at least 1, the posts
delivered to the onPost buffer callback over a whole collection run are
exactly the first N events — later events are dropped, never buffered —
so at most N posts are ever delivered. -/
theorem runFirehose_eventLimit (N : Nat) (hN : 1 ≤ N) (events : List FirehosePost) :
    (runFirehose N events).delivered = events.take N ∧
      (runFirehose N events).delivered.length ≤ N := by
  have h := foldl_handle_delivered N events 0 [] (by omega) (by omega)
  have hd : (runFirehose N events).delivered = events.take N := by
    simpa [runFirehose] using h
  refine ⟨hd, ?_⟩
  rw [hd]
  simpa using List.length_take_le N events

/-- C9 witness: with ceiling 2 and three incoming events only the first
two are delivered. -/
theorem runFirehose_eventLimit_witness :
    (runFirehose 2 [⟨"a".data, [], [], []⟩, ⟨"b".data, [], [], []⟩,
        ⟨"c".data, [], [], []⟩]).delivered =
      [⟨"a".data, [], [], []⟩, ⟨"b".data, [], [], []⟩,
        (⟨"c".data, [], [], []⟩ : FirehosePost)].take 2 ∧
      (runFirehose 2 [⟨"a".data, [], [], []⟩, ⟨"b".data, [], [], []⟩,
        ⟨"c".data, [], [], []⟩]).delivered.length ≤ 2 :=
  runFirehose_eventLimit 2 (by decide)
    [⟨"a".data, [], [], []⟩, ⟨"b".data, [], [], []⟩, ⟨"c".data, [], [], []⟩]

/-! ## Time-indexed store lemmas -/

/-- Fallback metadata, only used to express the reconstruction function
totally; every entry considered by the range-query claim carries
metadata. -/
def defaultMeta : SentimentMeta := ⟨0, 0, 0, 0, 0, 0, 0⟩

/-- The record getHistoricalMeters rebuilds from a listed key. -/
def recordOf (e : KVEntry) : StoredRecord := ⟨e.name, e.metadata.getD defaultMeta⟩

theorem pagedScan_eq (l : List KVEntry) : pagedScan l = l := by
  induction l using pagedScan.induct with
  | case1 => rw [pagedScan]
  | case2 e rest ih => rw [pagedScan, ih, List.take_append_drop]

theorem mem_hourLoop : ∀ current endH,
    current % msPerHour = 0 → endH % msPerHour = 0 → ∀ p,
    (p ∈ hourLoop current endH ↔
      current / msPerHour ≤ p ∧ p ≤ endH / msPerHour) := by
  intro current endH
  induction current, endH using hourLoop.induct with
  | case1 current endH hle ih =>
    intro hc he p
    have hc' : (current + msPerHour) % msPerHour = 0 := by
      simp only [msPerHour] at hc ⊢
      omega
    rw [hourLoop, if_pos hle, List.mem_cons, ih hc' he p]
    simp only [msPerHour] at hc he hle ⊢
    omega
  | case2 current endH hle =>
    intro hc he p
    rw [hourLoop, if_neg hle]
    simp only [List.not_mem_nil, false_iff]
    simp only [msPerHour] at hc he hle ⊢
    omega

theorem hourLoop_nodup : ∀ current endH,
    current % msPerHour = 0 → endH % msPerHour = 0 →
    (hourLoop current endH).Nodup := by
  intro current endH
  induction current, endH using hourLoop.induct with
  | case1 current endH hle ih =>
    intro hc he
    have hc' : (current + msPerHour) % msPerHour = 0 := by
      simp only [msPerHour] at hc ⊢
      omega
    rw [hourLoop, if_pos hle]
    refine List.nodup_cons.mpr ⟨?_, ih hc' he⟩
    rw [mem_hourLoop _ _ hc' he]
    simp only [msPerHour] at hc ⊢
    omega
  | case2 current endH hle =>
    intro hc he
    rw [hourLoop, if_neg hle]
    exact List.nodup_nil

theorem filter_or_perm {α : Type*} (p q : α → Bool) (l : List α)
    (hdisj : ∀ e ∈ l, ¬(p e = true ∧ q e = true)) :
    (l.filter p ++ l.filter q).Perm (l.filter (fun e => p e || q e)) := by
  induction l with
  | nil => simp
  | cons e rest ih =>
    have ih' := ih (fun x hx => hdisj x (by simp [hx]))
    by_cases hp : p e = true
    · have hq : ¬ q e = true := fun hq => hdisj e (by simp) ⟨hp, hq⟩
      simp only [List.filter_cons, hp, if_pos, hq, if_neg, Bool.true_or,
        List.cons_append]
      simp only [Bool.false_eq_true, if_false]
      exact ih'.cons e
    · by_cases hq : q e = true
      · simp only [List.filter_cons, hp, hq, Bool.false_eq_true, if_false,
          Bool.or_true, if_pos]
        exact List.perm_middle.trans (ih'.cons e)
      · simp only [List.filter_cons, hp, hq, Bool.false_eq_true, if_false,
          Bool.or_false]
        exact ih'

theorem flatMap_perm_congr {α β : Type*} (l : List α) (f g : α → List β)
    (h : ∀ a ∈ l, (f a).Perm (g a)) :
    (l.flatMap f).Perm (l.flatMap g) := by
  induction l with
  | nil => simp
  | cons a rest ih =>
    simp only [List.flatMap_cons]
    exact (h a (by simp)).append (ih (fun x hx => h x (by simp [hx])))

theorem flatMap_filterMap {α β γ : Type*} (l : List α) (f : α → List β) (g : β → Option γ) :
    l.flatMap (fun a => (f a).filterMap g) = (l.flatMap f).filterMap g := by
  induction l with
  | nil => rfl
  | cons a rest ih => simp [List.flatMap_cons, List.filterMap_append, ih]

theorem filter_flatMap_partition (buckets : List Nat) (hnd : buckets.Nodup)
    (kv : List KVEntry) :
    (buckets.flatMap (fun b => kv.filter (fun e => decide (e.name / msPerHour = b)))).Perm
      (kv.filter (fun e => decide (e.name / msPerHour ∈ buckets))) := by
  induction buckets with
  | nil => simp
  | cons b bs ih =>
    rcases List.nodup_cons.mp hnd with ⟨hb, hnd'⟩
    simp only [List.flatMap_cons]
    refine (List.Perm.append_left _ (ih hnd')).trans ?_
    refine (filter_or_perm _ _ kv ?_).trans ?_
    · rintro e _ ⟨h1, h2⟩
      simp only [decide_eq_true_eq] at h1 h2
      exact hb (h1 ▸ h2)
    · refine List.Perm.of_eq (List.filter_congr ?_)
      intro x _
      by_cases h1 : x.name / msPerHour = b <;>
        by_cases h2 : x.name / msPerHour ∈ bs <;>
          simp [h1, h2]

/-- The post-filtering and record reconstruction of getHistoricalMeters:
over entries already known to lie in the covered hour buckets, keeping
exactly the keys inside the exact bounds rebuilds exactly the records of
the range-filtered store. -/
theorem filterMap_range (kv : List KVEntry) (start endT : Nat)
    (hmeta : ∀ e ∈ kv, e.metadata.isSome) :
    ((kv.filter (fun e => decide (start / msPerHour ≤ e.name / msPerHour ∧
        e.name / msPerHour ≤ endT / msPerHour))).filterMap (rangeFilterFun start endT)) =
      (kv.filter (fun e => decide (start ≤ e.name ∧ e.name ≤ endT))).map recordOf := by
  induction kv with
  | nil => rfl
  | cons e rest ih =>
    have ih' := ih (fun x hx => hmeta x (by simp [hx]))
    obtain ⟨m, hm⟩ := Option.isSome_iff_exists.mp (hmeta e (by simp))
    by_cases hr : start ≤ e.name ∧ e.name ≤ endT
    · have hh : start / msPerHour ≤ e.name / msPerHour ∧
          e.name / msPerHour ≤ endT / msPerHour :=
        ⟨Nat.div_le_div_right hr.1, Nat.div_le_div_right hr.2⟩
      rw [List.filter_cons, if_pos (by simpa using hh),
        List.filter_cons, if_pos (by simpa using hr)]
      simp only [List.filterMap_cons, rangeFilterFun, hm, if_pos hr, List.map_cons]
      rw [ih']
      simp [recordOf, hm]
    · by_cases hh : start / msPerHour ≤ e.name / msPerHour ∧
          e.name / msPerHour ≤ endT / msPerHour
      · rw [List.filter_cons, if_pos (by simpa using hh),
          List.filter_cons, if_neg (by simpa using hr)]
        simp only [List.filterMap_cons, rangeFilterFun, hm, if_neg hr]
        exact ih'
      · rw [List.filter_cons, if_neg (by simpa using hh),
          List.filter_cons, if_neg (by simpa using hr)]
        exact ih'

theorem stableSort_sorted {α : Type*} (le : α → α → Bool)
    (htrans : ∀ a b c, le a b = true → le b c = true → le a c = true)
    (htotal : ∀ a b, le a b = true ∨ le b a = true) (l : List α) :
    (stableSort le l).Pairwise (fun a b => le a b = true) := by
  have htriv : l.Pairwise (fun _ _ => (True : Prop)) := by
    induction l with
    | nil => simp
    | cons a rest ih => exact List.pairwise_cons.mpr ⟨fun _ _ => trivial, ih⟩
  exact (stableSort_pairwise le htrans htotal l htriv).imp (fun h => h.1)

/-- C1: for bounds start at most end over a store whose entries all carry
metadata, the range query returns exactly the stored records whose key
lies inside the inclusive bounds — no matter which hour bucket each was
discovered under, bounds splitting an hour included — and the result is
sorted ascending by timestamp. -/
theorem getHistoricalMeters_range (kv : List KVEntry) (start endT : Nat)
    (h : start ≤ endT) (hmeta : ∀ e ∈ kv, e.metadata.isSome) :
    ((getHistoricalMeters kv start endT).1).Perm
      ((kv.filter (fun e => decide (start ≤ e.name ∧ e.name ≤ endT))).map recordOf) ∧
    List.Sorted (fun a b : StoredRecord => a.timestamp ≤ b.timestamp)
      (getHistoricalMeters kv start endT).1 := by
  have hrtrans : ∀ a b c : StoredRecord,
      recordLe a b = true → recordLe b c = true → recordLe a c = true := by
    intro a b c
    simp only [recordLe, decide_eq_true_eq]
    omega
  have hrtotal : ∀ a b : StoredRecord, recordLe a b = true ∨ recordLe b a = true := by
    intro a b
    simp only [recordLe, decide_eq_true_eq]
    omega
  have hstart : (start - start % msPerHour) % msPerHour = 0 := by
    simp only [msPerHour]; omega
  have hend : (endT - endT % msPerHour) % msPerHour = 0 := by
    simp only [msPerHour]; omega
  have hs' : (start - start % msPerHour) / msPerHour = start / msPerHour := by
    simp only [msPerHour]; omega
  have he' : (endT - endT % msPerHour) / msPerHour = endT / msPerHour := by
    simp only [msPerHour]; omega
  constructor
  · refine (stableSort_perm recordLe _).trans ?_
    refine ((flatMap_perm_congr _ _
      (fun b => (kv.filter (fun e => decide (e.name / msPerHour = b))).filterMap
        (rangeFilterFun start endT))
      (fun b _ => by
        rw [pagedScan_eq]
        simp only [kvListAll]
        exact List.Perm.filterMap _ (stableSort_perm entryLe _))).trans ?_)
    rw [flatMap_filterMap]
    refine (List.Perm.filterMap _
      (filter_flatMap_partition _ (hourLoop_nodup _ _ hstart hend) kv)).trans ?_
    rw [show kv.filter (fun e => decide (e.name / msPerHour ∈
        hourLoop (start - start % msPerHour) (endT - endT % msPerHour))) =
        kv.filter (fun e => decide (start / msPerHour ≤ e.name / msPerHour ∧
          e.name / msPerHour ≤ endT / msPerHour)) from
      List.filter_congr (fun x _ => by
        rw [decide_eq_decide, mem_hourLoop _ _ hstart hend, hs', he'])]
    exact List.Perm.of_eq (filterMap_range kv start endT hmeta)
  · exact (stableSort_sorted recordLe hrtrans hrtotal _).imp
      (fun hab => by simpa [recordLe] using hab)

/-- C1 witness: a store with keys at one and two hours, queried from half
past one to half past two, returns exactly the second record. -/
theorem getHistoricalMeters_range_witness :
    ((getHistoricalMeters
        [⟨3600000, some ⟨1, 1, 0, 0, 0, 0, 0⟩, []⟩, ⟨7200000, some ⟨2, 0, 1, 0, 0, 0, 0⟩, []⟩]
        5400000 9000000).1).Perm
      (([⟨3600000, some ⟨1, 1, 0, 0, 0, 0, 0⟩, []⟩,
          (⟨7200000, some ⟨2, 0, 1, 0, 0, 0, 0⟩, []⟩ : KVEntry)].filter
        (fun e => decide (5400000 ≤ e.name ∧ e.name ≤ 9000000))).map recordOf) ∧
    List.Sorted (fun a b : StoredRecord => a.timestamp ≤ b.timestamp)
      (getHistoricalMeters
        [⟨3600000, some ⟨1, 1, 0, 0, 0, 0, 0⟩, []⟩, ⟨7200000, some ⟨2, 0, 1, 0, 0, 0, 0⟩, []⟩]
        5400000 9000000).1 :=
  getHistoricalMeters_range
    [⟨3600000, some ⟨1, 1, 0, 0, 0, 0, 0⟩, []⟩, ⟨7200000, some ⟨2, 0, 1, 0, 0, 0, 0⟩, []⟩]
    5400000 9000000 (by decide) (by decide)

/-- C10: every range query mutates its two Date arguments in place: after
the call both are truncated to the start of their hour (minutes, seconds
and milliseconds zeroed by setMinutes(0,0,0) inside
generateHourPrefixes).  The embedding returns the final values of the
two caller-owned Date objects; the store argument itself is a pure input
that the read never modifies. -/
theorem getHistoricalMeters_mutates_bounds (kv : List KVEntry) (start endT : Nat) :
    (getHistoricalMeters kv start endT).2.1 = start - start % msPerHour ∧
    (getHistoricalMeters kv start endT).2.2 = endT - endT % msPerHour :=
  ⟨rfl, rfl⟩

/-! ## Regex scan lemmas -/

/-- Whether the pattern occurs anywhere in the string (Boolean substring
test, matching the positions the scan can anchor at). -/
def occursInB (pat : Str) : Str → Bool
  | [] => pat.isEmpty
  | c :: rest => matchesAt pat (c :: rest) || occursInB pat rest

theorem matchesAt_self (pat rest : Str) : matchesAt pat (pat ++ rest) = true := by
  induction pat with
  | nil => rfl
  | cons p ps ih => simp [matchesAt, ih]

theorem matchesAt_iff (pat s : Str) :
    matchesAt pat s = true ↔ ∃ y, s = pat ++ y := by
  constructor
  · intro h
    induction pat generalizing s with
    | nil => exact ⟨s, rfl⟩
    | cons p ps ih =>
      cases s with
      | nil => simp [matchesAt] at h
      | cons c cs =>
        simp only [matchesAt, Bool.and_eq_true, beq_iff_eq] at h
        obtain ⟨rfl, h2⟩ := h
        obtain ⟨y, rfl⟩ := ih cs h2
        exact ⟨y, rfl⟩
  · rintro ⟨y, rfl⟩
    exact matchesAt_self pat y

theorem matchesAt_newline (pat : Str) (y : Str) :
    ∀ x, '\n' ∉ pat → matchesAt pat (x ++ '\n' :: y) = true → matchesAt pat x = true := by
  induction pat with
  | nil => intro x _ _; rfl
  | cons p ps ih =>
    intro x hnl h
    cases x with
    | nil =>
      simp only [List.nil_append, matchesAt, Bool.and_eq_true, beq_iff_eq] at h
      exact absurd (List.mem_cons_self '\n' ps) (by simpa [h.1] using hnl)
    | cons c cs =>
      simp only [List.cons_append, matchesAt, Bool.and_eq_true, beq_iff_eq] at h ⊢
      exact ⟨h.1, ih cs (fun hm => hnl (List.mem_cons.mpr (Or.inr hm))) h.2⟩

theorem occursInB_parts (pat s : Str) (h : occursInB pat s = true) :
    ∃ x y, s = x ++ pat ++ y := by
  induction s with
  | nil =>
    refine ⟨[], [], ?_⟩
    simp only [occursInB, List.isEmpty_iff] at h
    simp [h]
  | cons c rest ih =>
    simp only [occursInB, Bool.or_eq_true] at h
    rcases h with h | h
    · obtain ⟨y, hy⟩ := (matchesAt_iff pat (c :: rest)).mp h
      exact ⟨[], y, by simp [hy]⟩
    · obtain ⟨x, y, hxy⟩ := ih h
      exact ⟨c :: x, y, by simp [hxy]⟩

theorem occursInB_append_newline (pat A B : Str) (hne : pat ≠ []) (hnl : '\n' ∉ pat)
    (hA : occursInB pat A = false) (hB : occursInB pat B = false) :
    occursInB pat (A ++ '\n' :: B) = false := by
  induction A with
  | nil =>
    cases pat with
    | nil => exact absurd rfl hne
    | cons p ps =>
      have hp : p ≠ '\n' := fun h => hnl (h ▸ List.mem_cons_self p ps)
      simp [occursInB, matchesAt, hB, hp]
  | cons c A' ih =>
    simp only [occursInB, Bool.or_eq_false_iff] at hA
    obtain ⟨hA1, hA2⟩ := hA
    have h1 : matchesAt pat (c :: (A' ++ '\n' :: B)) = false := by
      cases hx : matchesAt pat (c :: (A' ++ '\n' :: B)) with
      | false => rfl
      | true =>
        have h2 := matchesAt_newline pat B (c :: A') hnl (by simpa using hx)
        exact absurd h2 (by simp [hA1])
    simp only [List.cons_append, occursInB, Bool.or_eq_false_iff]
    exact ⟨h1, ih hA2⟩

theorem scanFor_none (pat : Str) (m : Str → Option Str) :
    ∀ s, occursInB pat s = false → scanFor pat m s = none := by
  intro s
  induction s with
  | nil => intro _; rfl
  | cons c rest ih =>
    intro h
    simp only [occursInB, Bool.or_eq_false_iff] at h
    simp only [scanFor, h.1, Bool.false_eq_true, if_false]
    exact ih h.2

theorem scanFor_hit (pat : Str) (m : Str → Option Str) (rest : Str) (r : Str)
    (hne : pat ≠ []) (hm : m rest = some r) : scanFor pat m (pat ++ rest) = some r := by
  cases pat with
  | nil => exact absurd rfl hne
  | cons p ps =>
    have h1 : matchesAt (p :: ps) ((p :: ps) ++ rest) = true := matchesAt_self _ _
    have h2 : ((p :: ps) ++ rest).drop (p :: ps).length = rest := List.drop_left _ _
    show scanFor (p :: ps) m (p :: (ps ++ rest)) = some r
    simp only [List.cons_append] at h1 h2
    simp only [scanFor, h1, if_true, h2, hm]

theorem scanFor_step_none (p : Char) (ps : Str) (m : Str → Option Str) (rest : Str)
    (hm : m rest = none) :
    scanFor (p :: ps) m ((p :: ps) ++ rest) = scanFor (p :: ps) m (ps ++ rest) := by
  have h1 : matchesAt (p :: ps) ((p :: ps) ++ rest) = true := matchesAt_self _ _
  have h2 : ((p :: ps) ++ rest).drop (p :: ps).length = rest := List.drop_left _ _
  show scanFor (p :: ps) m (p :: (ps ++ rest)) = _
  simp only [List.cons_append] at h1 h2
  simp only [scanFor, h1, if_true, h2, hm]

theorem scanFor_skip (pat : Str) (m : Str → Option Str) (B : Str)
    (hne : pat ≠ []) (hnl : '\n' ∉ pat) :
    ∀ A, occursInB pat A = false →
      scanFor pat m (A ++ '\n' :: B) = scanFor pat m B := by
  intro A
  induction A with
  | nil =>
    intro _
    cases pat with
    | nil => exact absurd rfl hne
    | cons p ps =>
      have hp : p ≠ '\n' := fun h => hnl (h ▸ List.mem_cons_self p ps)
      simp [scanFor, matchesAt, hp]
  | cons c A' ih =>
    intro h
    simp only [occursInB, Bool.or_eq_false_iff] at h
    obtain ⟨h1, h2⟩ := h
    have hm : matchesAt pat (c :: (A' ++ '\n' :: B)) = false := by
      cases hx : matchesAt pat (c :: (A' ++ '\n' :: B)) with
      | false => rfl
      | true =>
        exact absurd (matchesAt_newline pat B (c :: A') hnl (by simpa using hx))
          (by simp [h1])
    show scanFor pat m (c :: (A' ++ '\n' :: B)) = scanFor pat m B
    simp only [scanFor, hm, Bool.false_eq_true, if_false]
    exact ih h2

/-- Join of reply lines with line feeds, the layout the classifier
contract prescribes. -/
def joinLines : List Str → Str
  | [] => []
  | [l] => l
  | l :: l2 :: rest => l ++ '\n' :: joinLines (l2 :: rest)

theorem joinLines_cons_cons (l l2 : Str) (rest : List Str) :
    joinLines (l :: l2 :: rest) = l ++ '\n' :: joinLines (l2 :: rest) := rfl

theorem occursInB_joinLines (pat : Str) (hne : pat ≠ []) (hnl : '\n' ∉ pat) :
    ∀ lines : List Str, (∀ l ∈ lines, occursInB pat l = false) →
      occursInB pat (joinLines lines) = false := by
  intro lines
  induction lines with
  | nil =>
    intro _
    cases pat with
    | nil => exact absurd rfl hne
    | cons p ps => rfl
  | cons l ls ih =>
    intro h
    cases ls with
    | nil => exact h l (by simp)
    | cons l2 ls2 =>
      rw [joinLines_cons_cons]
      exact occursInB_append_newline pat l _ hne hnl (h l (by simp))
        (ih (fun x hx => h x (by simp [hx])))

theorem colon_align : ∀ (u W' v y : Str), ':' ∉ W' → ':' ∉ v →
    u ++ ':' :: y = W' ++ ':' :: v → u.length = W'.length := by
  intro u
  induction u with
  | nil =>
    intro W' v y h2 h3 heq
    cases W' with
    | nil => rfl
    | cons c W'' =>
      injection heq with hc _
      exact absurd (by rw [← hc]; exact List.mem_cons_self ':' W'' : ':' ∈ c :: W'') h2
  | cons c u' ih =>
    intro W' v y h2 h3 heq
    cases W' with
    | nil =>
      injection heq with hc htail
      exact absurd
        (htail ▸ (List.mem_append.mpr (Or.inr (List.mem_cons_self ':' y)))) h3
    | cons c' W'' =>
      injection heq with hc htail
      simp only [List.length_cons]
      rw [ih W'' v y (fun hm => h2 (List.mem_cons.mpr (Or.inr hm))) h3 htail]

theorem no_occurrence_line (W W' v' : Str) (h2 : ':' ∉ W') (h3 : ':' ∉ v')
    (hns : ¬ (W.length ≤ W'.length ∧ W'.drop (W'.length - W.length) = W)) :
    occursInB (W ++ [':']) (W' ++ ':' :: v') = false := by
  cases hx : occursInB (W ++ [':']) (W' ++ ':' :: v') with
  | false => rfl
  | true =>
    exfalso
    obtain ⟨x, y, hxy⟩ := occursInB_parts _ _ hx
    have hxy' : (x ++ W) ++ ':' :: y = W' ++ ':' :: v' := by
      rw [hxy]
      simp [List.append_assoc]
    have hlen : (x ++ W).length = W'.length := colon_align (x ++ W) W' v' y h2 h3 hxy'
    obtain ⟨hW', -⟩ := List.append_inj hxy' hlen
    apply hns
    have hlx : x.length + W.length = W'.length := by
      have := congrArg List.length hW'
      simpa using this
    refine ⟨by omega, ?_⟩
    rw [show W'.length - W.length = x.length from by omega, ← hW', List.drop_left]

theorem ws_not_numChar (c : Char) (h : Char.isWhitespace c = true) :
    isNumChar c = false := by
  simp only [Char.isWhitespace, Bool.or_eq_true, decide_eq_true_eq] at h
  rcases h with ((rfl | rfl) | rfl) | rfl <;> decide

theorem numChar_not_ws (c : Char) (h : isNumChar c = true) :
    Char.isWhitespace c = false := by
  cases hw : Char.isWhitespace c with
  | false => rfl
  | true => exact absurd h (by simp [ws_not_numChar c hw])

theorem scanScoreVal_at (v rest' : Str) (hv1 : v ≠ [])
    (hv2 : ∀ c ∈ v, isNumChar c = true)
    (hr : rest' = [] ∨ ∃ w, rest' = '\n' :: w) :
    scanScoreVal (v ++ rest') = some v := by
  cases v with
  | nil => exact absurd rfl hv1
  | cons c v' =>
    have hc := hv2 c (by simp)
    have hnw : ¬ (Char.isWhitespace c = true) := by
      rw [numChar_not_ws c hc]
      simp
    simp only [scanScoreVal]
    rw [show (c :: v') ++ rest' = c :: (v' ++ rest') from rfl, List.dropWhile_cons,
      if_neg hnw,
      show (c :: (v' ++ rest')) = (c :: v') ++ rest' from rfl, List.takeWhile_append,
      List.takeWhile_eq_self_iff.mpr hv2, if_pos rfl]
    rcases hr with rfl | ⟨w, rfl⟩
    · simp
    · rw [show List.takeWhile isNumChar ('\n' :: w) = [] from by
        rw [List.takeWhile_cons, if_neg (by decide)]]
      simp

theorem dropWhile_append_stops (p : Char → Bool) :
    ∀ (cv z : Str), (∃ c ∈ cv, p c = false) →
      (cv ++ z).dropWhile p = cv.dropWhile p ++ z := by
  intro cv
  induction cv with
  | nil =>
    rintro z ⟨c, hc, -⟩
    simp at hc
  | cons c cv' ih =>
    rintro z ⟨d, hd, hpd⟩
    cases hp : p c with
    | false => simp [List.dropWhile_cons, hp]
    | true =>
      have hd' : d ∈ cv' := by
        rcases List.mem_cons.mp hd with rfl | h
        · rw [hp] at hpd
          exact absurd hpd (by simp)
        · exact h
      simp [List.dropWhile_cons, hp, ih z ⟨d, hd', hpd⟩]

theorem dropWhile_ne_nil (p : Char → Bool) :
    ∀ (cv : Str), (∃ c ∈ cv, p c = false) → cv.dropWhile p ≠ [] := by
  intro cv
  induction cv with
  | nil =>
    rintro ⟨c, hc, -⟩
    simp at hc
  | cons c cv' ih =>
    rintro ⟨d, hd, hpd⟩
    cases hp : p c with
    | false => simp [List.dropWhile_cons, hp]
    | true =>
      have hd' : d ∈ cv' := by
        rcases List.mem_cons.mp hd with rfl | h
        · rw [hp] at hpd
          exact absurd hpd (by simp)
        · exact h
      simp only [List.dropWhile_cons, hp, if_true]
      exact ih ⟨d, hd', hpd⟩

theorem scanRestVal_at (cv rest' : Str)
    (hnl : '\n' ∉ cv) (hcr : '\r' ∉ cv)
    (hws : ∃ c ∈ cv, Char.isWhitespace c = false)
    (hr : rest' = [] ∨ ∃ w, rest' = '\n' :: w) :
    scanRestVal (cv ++ rest') = some (cv.dropWhile Char.isWhitespace) := by
  have hall : ∀ c ∈ cv.dropWhile Char.isWhitespace, isDotChar c = true := by
    intro c hcmem
    have hcv : c ∈ cv := (@List.dropWhile_sublist _ cv Char.isWhitespace).subset hcmem
    have hn : c ≠ '\n' := fun h => hnl (h ▸ hcv)
    have hrch : c ≠ '\r' := fun h => hcr (h ▸ hcv)
    simp [isDotChar, hn, hrch]
  obtain ⟨hd, tl, heq⟩ := List.exists_cons_of_ne_nil (dropWhile_ne_nil Char.isWhitespace cv hws)
  simp only [scanRestVal]
  rw [dropWhile_append_stops Char.isWhitespace cv rest' hws, heq]
  rw [show (hd :: tl) ++ rest' = hd :: (tl ++ rest') from rfl]
  simp only [List.isEmpty_cons, Bool.false_eq_true, if_false]
  rw [show hd :: (tl ++ rest') = (hd :: tl) ++ rest' from rfl, List.takeWhile_append,
    List.takeWhile_eq_self_iff.mpr (heq ▸ hall), if_pos rfl]
  rcases hr with rfl | ⟨w, rfl⟩
  · simp
  · rw [show List.takeWhile isDotChar ('\n' :: w) = [] from by
      rw [List.takeWhile_cons, if_neg (by decide)]]
    simp

/-- The seven labelled reply lines of the classifier contract, with
symbolic field values, in contract order. -/
def sevenLines (hv sv av fv uv dv cv : Str) : List Str :=
  ["happiness".data ++ ':' :: hv,
    "sadness".data ++ ':' :: sv,
    "anger".data ++ ':' :: av,
    "fear".data ++ ':' :: fv,
    "surprise".data ++ ':' :: uv,
    "disgust".data ++ ':' :: dv,
    "concepts".data ++ ':' :: cv]

/-- A well-formed score value: a non-empty run of digits and dots. -/
def goodScore (v : Str) : Prop := v ≠ [] ∧ ∀ c ∈ v, isNumChar c = true

/-- A well-formed concepts payload: no colon, no line terminator, at
least one non-whitespace character. -/
def goodConcepts (cv : Str) : Prop :=
  ':' ∉ cv ∧ '\n' ∉ cv ∧ '\r' ∉ cv ∧ ∃ c ∈ cv, Char.isWhitespace c = false

instance (v : Str) : Decidable (goodScore v) := by
  unfold goodScore
  infer_instance

instance (cv : Str) : Decidable (goodConcepts cv) := by
  unfold goodConcepts
  infer_instance

theorem goodScore_colonFree (v : Str) (h : goodScore v) : ':' ∉ v := by
  intro hc
  exact absurd (h.2 ':' hc) (by decide)

theorem scanFor_lines_target (pat : Str) (m : Str → Option Str)
    (hne : pat ≠ []) (hnl : '\n' ∉ pat) (L : Str) (r : Str)
    (htarget : ∀ S : List Str, scanFor pat m (joinLines (L :: S)) = some r) :
    ∀ lines : List Str, L ∈ lines →
      (∀ p ∈ lines, p = L ∨ occursInB pat p = false) →
      scanFor pat m (joinLines lines) = some r := by
  intro lines
  induction lines with
  | nil =>
    intro h _
    simp at h
  | cons l ls ih =>
    intro hmem hcl
    by_cases hl : l = L
    · subst hl
      exact htarget ls
    · have hclean : occursInB pat l = false := (hcl l (by simp)).resolve_left hl
      have hmem' : L ∈ ls := by
        rcases List.mem_cons.mp hmem with h | h
        · exact absurd h.symm hl
        · exact h
      cases ls with
      | nil => simp at hmem'
      | cons l2 ls2 =>
        rw [joinLines_cons_cons, scanFor_skip pat m _ hne hnl l hclean]
        exact ih hmem' (fun p hp => hcl p (by simp [hp]))

theorem scanScore_target (W v : Str) (hW : W ≠ []) (hv : goodScore v) :
    ∀ S : List Str,
      scanFor (W ++ [':']) scanScoreVal (joinLines ((W ++ ':' :: v) :: S)) = some v := by
  have hpne : W ++ [':'] ≠ [] := by simp
  intro S
  cases S with
  | nil =>
    show scanFor (W ++ [':']) scanScoreVal (W ++ ':' :: v) = some v
    rw [show W ++ ':' :: v = (W ++ [':']) ++ v from by simp]
    refine scanFor_hit _ _ v v hpne ?_
    simpa using scanScoreVal_at v [] hv.1 hv.2 (Or.inl rfl)
  | cons s2 ss =>
    rw [joinLines_cons_cons,
      show (W ++ ':' :: v) ++ '\n' :: joinLines (s2 :: ss) =
        (W ++ [':']) ++ (v ++ '\n' :: joinLines (s2 :: ss)) from by simp]
    exact scanFor_hit _ _ _ v hpne (scanScoreVal_at v _ hv.1 hv.2 (Or.inr ⟨_, rfl⟩))

theorem scanConcepts_target (cv : Str) (hcv : goodConcepts cv) :
    ∀ S : List Str,
      scanFor ("concepts".data ++ [':']) scanRestVal
        (joinLines (("concepts".data ++ ':' :: cv) :: S)) =
      some (cv.dropWhile Char.isWhitespace) := by
  obtain ⟨h1, h2, h3, h4⟩ := hcv
  intro S
  cases S with
  | nil =>
    show scanFor _ scanRestVal ("concepts".data ++ ':' :: cv) = _
    rw [show "concepts".data ++ ':' :: cv = ("concepts".data ++ [':']) ++ cv from by simp]
    refine scanFor_hit _ _ cv _ (by simp) ?_
    simpa using scanRestVal_at cv [] h2 h3 h4 (Or.inl rfl)
  | cons s2 ss =>
    rw [joinLines_cons_cons,
      show ("concepts".data ++ ':' :: cv) ++ '\n' :: joinLines (s2 :: ss) =
        ("concepts".data ++ [':']) ++ (cv ++ '\n' :: joinLines (s2 :: ss)) from by simp]
    exact scanFor_hit _ _ _ _ (by simp) (scanRestVal_at cv _ h2 h3 h4 (Or.inr ⟨_, rfl⟩))

theorem dropWhile_idem (p : Char → Bool) :
    ∀ l : Str, (l.dropWhile p).dropWhile p = l.dropWhile p := by
  intro l
  induction l with
  | nil => rfl
  | cons c rest ih =>
    cases hp : p c with
    | true => simp [List.dropWhile_cons, hp, ih]
    | false => simp [List.dropWhile_cons, hp]

theorem splitConcepts_dropWhile (cv : Str) :
    splitConcepts (cv.dropWhile Char.isWhitespace) = splitConcepts cv := by
  unfold splitConcepts trimStr
  rw [dropWhile_idem]

theorem parse_failure_cases (content : Str)
    (h : scanFor "happiness:".data scanScoreVal content = none ∨
      scanFor "sadness:".data scanScoreVal content = none ∨
      scanFor "anger:".data scanScoreVal content = none ∨
      scanFor "fear:".data scanScoreVal content = none ∨
      scanFor "surprise:".data scanScoreVal content = none ∨
      scanFor "disgust:".data scanScoreVal content = none ∨
      scanFor "concepts:".data scanRestVal content = none) :
    parseSentimentResponse content = .failure (some content) := by
  unfold parseSentimentResponse
  split
  · rcases h with h | h | h | h | h | h | h <;> simp_all
  · rfl

theorem parse_failure_reason (content : Str) (r : Option Str)
    (h : parseSentimentResponse content = .failure r) : r = some content := by
  unfold parseSentimentResponse at h
  split at h
  · exact absurd h (by simp)
  · exact (SentimentResult.failure.inj h).symm

theorem scanScoreVal_minus (w : Str) : scanScoreVal ('-' :: w) = none := by
  have h1 : List.dropWhile Char.isWhitespace ('-' :: w) = '-' :: w := by
    rw [List.dropWhile_cons, if_neg (by decide : ¬('-'.isWhitespace = true))]
  have h2 : List.takeWhile isNumChar ('-' :: w) = [] := by
    rw [List.takeWhile_cons, if_neg (by decide : ¬(isNumChar '-' = true))]
  simp only [scanScoreVal, h1, h2]
  rfl

theorem lines_clean_or_target (pat : Str) (hv sv av fv uv dv cv : Str)
    (lines : List Str) (hperm : lines.Perm (sevenLines hv sv av fv uv dv cv)) (L : Str)
    (hcases : ∀ q ∈ sevenLines hv sv av fv uv dv cv, q = L ∨ occursInB pat q = false) :
    ∀ p ∈ lines, p = L ∨ occursInB pat p = false := by
  intro p hp
  exact hcases p (hperm.mem_iff.mp hp)

/-- Every reply made of the seven contract lines in any order, with
well-formed field values, parses to a Success carrying exactly those
values: the label fields are extracted by pattern, not by position. -/
theorem parse_good_lines (hv sv av fv uv dv cv : Str) (lines : List Str)
    (hperm : lines.Perm (sevenLines hv sv av fv uv dv cv))
    (h1 : goodScore hv) (h2 : goodScore sv) (h3 : goodScore av) (h4 : goodScore fv)
    (h5 : goodScore uv) (h6 : goodScore dv) (h7 : goodConcepts cv) :
    parseSentimentResponse (joinLines lines) =
      .success (parseFloatQ hv) (parseFloatQ sv) (parseFloatQ av) (parseFloatQ fv)
        (parseFloatQ uv) (parseFloatQ dv) (splitConcepts cv) := by
  have sH : scanFor ("happiness".data ++ [':']) scanScoreVal (joinLines lines) = some hv := by
    refine scanFor_lines_target _ _ (by simp) (by decide) _ _
      (scanScore_target "happiness".data hv (by decide) h1) lines
      (hperm.mem_iff.mpr (by simp [sevenLines])) ?_
    refine lines_clean_or_target _ hv sv av fv uv dv cv lines hperm _ ?_
    intro q hq
    simp only [sevenLines, List.mem_cons, List.not_mem_nil, or_false] at hq
    rcases hq with rfl | rfl | rfl | rfl | rfl | rfl | rfl
    · exact Or.inl rfl
    · exact Or.inr (no_occurrence_line _ _ _ (by decide) (goodScore_colonFree sv h2) (by decide))
    · exact Or.inr (no_occurrence_line _ _ _ (by decide) (goodScore_colonFree av h3) (by decide))
    · exact Or.inr (no_occurrence_line _ _ _ (by decide) (goodScore_colonFree fv h4) (by decide))
    · exact Or.inr (no_occurrence_line _ _ _ (by decide) (goodScore_colonFree uv h5) (by decide))
    · exact Or.inr (no_occurrence_line _ _ _ (by decide) (goodScore_colonFree dv h6) (by decide))
    · exact Or.inr (no_occurrence_line _ _ _ (by decide) h7.1 (by decide))
  have sSa : scanFor ("sadness".data ++ [':']) scanScoreVal (joinLines lines) = some sv := by
    refine scanFor_lines_target _ _ (by simp) (by decide) _ _
      (scanScore_target "sadness".data sv (by decide) h2) lines
      (hperm.mem_iff.mpr (by simp [sevenLines])) ?_
    refine lines_clean_or_target _ hv sv av fv uv dv cv lines hperm _ ?_
    intro q hq
    simp only [sevenLines, List.mem_cons, List.not_mem_nil, or_false] at hq
    rcases hq with rfl | rfl | rfl | rfl | rfl | rfl | rfl
    · exact Or.inr (no_occurrence_line _ _ _ (by decide) (goodScore_colonFree hv h1) (by decide))
    · exact Or.inl rfl
    · exact Or.inr (no_occurrence_line _ _ _ (by decide) (goodScore_colonFree av h3) (by decide))
    · exact Or.inr (no_occurrence_line _ _ _ (by decide) (goodScore_colonFree fv h4) (by decide))
    · exact Or.inr (no_occurrence_line _ _ _ (by decide) (goodScore_colonFree uv h5) (by decide))
    · exact Or.inr (no_occurrence_line _ _ _ (by decide) (goodScore_colonFree dv h6) (by decide))
    · exact Or.inr (no_occurrence_line _ _ _ (by decide) h7.1 (by decide))
  have sAn : scanFor ("anger".data ++ [':']) scanScoreVal (joinLines lines) = some av := by
    refine scanFor_lines_target _ _ (by simp) (by decide) _ _
      (scanScore_target "anger".data av (by decide) h3) lines
      (hperm.mem_iff.mpr (by simp [sevenLines])) ?_
    refine lines_clean_or_target _ hv sv av fv uv dv cv lines hperm _ ?_
    intro q hq
    simp only [sevenLines, List.mem_cons, List.not_mem_nil, or_false] at hq
    rcases hq with rfl | rfl | rfl | rfl | rfl | rfl | rfl
    · exact Or.inr (no_occurrence_line _ _ _ (by decide) (goodScore_colonFree hv h1) (by decide))
    · exact Or.inr (no_occurrence_line _ _ _ (by decide) (goodScore_colonFree sv h2) (by decide))
    · exact Or.inl rfl
    · exact Or.inr (no_occurrence_line _ _ _ (by decide) (goodScore_colonFree fv h4) (by decide))
    · exact Or.inr (no_occurrence_line _ _ _ (by decide) (goodScore_colonFree uv h5) (by decide))
    · exact Or.inr (no_occurrence_line _ _ _ (by decide) (goodScore_colonFree dv h6) (by decide))
    · exact Or.inr (no_occurrence_line _ _ _ (by decide) h7.1 (by decide))
  have sFe : scanFor ("fear".data ++ [':']) scanScoreVal (joinLines lines) = some fv := by
    refine scanFor_lines_target _ _ (by simp) (by decide) _ _
      (scanScore_target "fear".data fv (by decide) h4) lines
      (hperm.mem_iff.mpr (by simp [sevenLines])) ?_
    refine lines_clean_or_target _ hv sv av fv uv dv cv lines hperm _ ?_
    intro q hq
    simp only [sevenLines, List.mem_cons, List.not_mem_nil, or_false] at hq
    rcases hq with rfl | rfl | rfl | rfl | rfl | rfl | rfl
    · exact Or.inr (no_occurrence_line _ _ _ (by decide) (goodScore_colonFree hv h1) (by decide))
    · exact Or.inr (no_occurrence_line _ _ _ (by decide) (goodScore_colonFree sv h2) (by decide))
    · exact Or.inr (no_occurrence_line _ _ _ (by decide) (goodScore_colonFree av h3) (by decide))
    · exact Or.inl rfl
    · exact Or.inr (no_occurrence_line _ _ _ (by decide) (goodScore_colonFree uv h5) (by decide))
    · exact Or.inr (no_occurrence_line _ _ _ (by decide) (goodScore_colonFree dv h6) (by decide))
    · exact Or.inr (no_occurrence_line _ _ _ (by decide) h7.1 (by decide))
  have sSu : scanFor ("surprise".data ++ [':']) scanScoreVal (joinLines lines) = some uv := by
    refine scanFor_lines_target _ _ (by simp) (by decide) _ _
      (scanScore_target "surprise".data uv (by decide) h5) lines
      (hperm.mem_iff.mpr (by simp [sevenLines])) ?_
    refine lines_clean_or_target _ hv sv av fv uv dv cv lines hperm _ ?_
    intro q hq
    simp only [sevenLines, List.mem_cons, List.not_mem_nil, or_false] at hq
    rcases hq with rfl | rfl | rfl | rfl | rfl | rfl | rfl
    · exact Or.inr (no_occurrence_line _ _ _ (by decide) (goodScore_colonFree hv h1) (by decide))
    · exact Or.inr (no_occurrence_line _ _ _ (by decide) (goodScore_colonFree sv h2) (by decide))
    · exact Or.inr (no_occurrence_line _ _ _ (by decide) (goodScore_colonFree av h3) (by decide))
    · exact Or.inr (no_occurrence_line _ _ _ (by decide) (goodScore_colonFree fv h4) (by decide))
    · exact Or.inl rfl
    · exact Or.inr (no_occurrence_line _ _ _ (by decide) (goodScore_colonFree dv h6) (by decide))
    · exact Or.inr (no_occurrence_line _ _ _ (by decide) h7.1 (by decide))
  have sDi : scanFor ("disgust".data ++ [':']) scanScoreVal (joinLines lines) = some dv := by
    refine scanFor_lines_target _ _ (by simp) (by decide) _ _
      (scanScore_target "disgust".data dv (by decide) h6) lines
      (hperm.mem_iff.mpr (by simp [sevenLines])) ?_
    refine lines_clean_or_target _ hv sv av fv uv dv cv lines hperm _ ?_
    intro q hq
    simp only [sevenLines, List.mem_cons, List.not_mem_nil, or_false] at hq
    rcases hq with rfl | rfl | rfl | rfl | rfl | rfl | rfl
    · exact Or.inr (no_occurrence_line _ _ _ (by decide) (goodScore_colonFree hv h1) (by decide))
    · exact Or.inr (no_occurrence_line _ _ _ (by decide) (goodScore_colonFree sv h2) (by decide))
    · exact Or.inr (no_occurrence_line _ _ _ (by decide) (goodScore_colonFree av h3) (by decide))
    · exact Or.inr (no_occurrence_line _ _ _ (by decide) (goodScore_colonFree fv h4) (by decide))
    · exact Or.inr (no_occurrence_line _ _ _ (by decide) (goodScore_colonFree uv h5) (by decide))
    · exact Or.inl rfl
    · exact Or.inr (no_occurrence_line _ _ _ (by decide) h7.1 (by decide))
  have sCo : scanFor ("concepts".data ++ [':']) scanRestVal (joinLines lines) =
      some (cv.dropWhile Char.isWhitespace) := by
    refine scanFor_lines_target _ _ (by simp) (by decide) _ _
      (scanConcepts_target cv h7) lines
      (hperm.mem_iff.mpr (by simp [sevenLines])) ?_
    refine lines_clean_or_target _ hv sv av fv uv dv cv lines hperm _ ?_
    intro q hq
    simp only [sevenLines, List.mem_cons, List.not_mem_nil, or_false] at hq
    rcases hq with rfl | rfl | rfl | rfl | rfl | rfl | rfl
    · exact Or.inr (no_occurrence_line _ _ _ (by decide) (goodScore_colonFree hv h1) (by decide))
    · exact Or.inr (no_occurrence_line _ _ _ (by decide) (goodScore_colonFree sv h2) (by decide))
    · exact Or.inr (no_occurrence_line _ _ _ (by decide) (goodScore_colonFree av h3) (by decide))
    · exact Or.inr (no_occurrence_line _ _ _ (by decide) (goodScore_colonFree fv h4) (by decide))
    · exact Or.inr (no_occurrence_line _ _ _ (by decide) (goodScore_colonFree uv h5) (by decide))
    · exact Or.inr (no_occurrence_line _ _ _ (by decide) (goodScore_colonFree dv h6) (by decide))
    · exact Or.inl rfl
  have eH : "happiness:".data = "happiness".data ++ [':'] := by decide
  have eSa : "sadness:".data = "sadness".data ++ [':'] := by decide
  have eAn : "anger:".data = "anger".data ++ [':'] := by decide
  have eFe : "fear:".data = "fear".data ++ [':'] := by decide
  have eSu : "surprise:".data = "surprise".data ++ [':'] := by decide
  have eDi : "disgust:".data = "disgust".data ++ [':'] := by decide
  have eCo : "concepts:".data = "concepts".data ++ [':'] := by decide
  unfold parseSentimentResponse
  rw [eH, eSa, eAn, eFe, eSu, eDi, eCo, sH, sSa, sAn, sFe, sSu, sDi, sCo]
  show SentimentResult.success (parseFloatQ hv) (parseFloatQ sv) (parseFloatQ av)
      (parseFloatQ fv) (parseFloatQ uv) (parseFloatQ dv)
      (splitConcepts (cv.dropWhile Char.isWhitespace)) = _
  rw [splitConcepts_dropWhile]

theorem scan_happiness_negative (v sv av fv uv dv cv : Str)
    (h2 : goodScore sv) (h3 : goodScore av) (h4 : goodScore fv) (h5 : goodScore uv)
    (h6 : goodScore dv) (h7 : goodConcepts cv) (hvc : ':' ∉ v) :
    scanFor "happiness:".data scanScoreVal
      (joinLines (sevenLines ('-' :: v) sv av fv uv dv cv)) = none := by
  have hBclean : occursInB ("happiness".data ++ [':'])
      (joinLines ["sadness".data ++ ':' :: sv, "anger".data ++ ':' :: av,
        "fear".data ++ ':' :: fv, "surprise".data ++ ':' :: uv,
        "disgust".data ++ ':' :: dv, "concepts".data ++ ':' :: cv]) = false := by
    refine occursInB_joinLines _ (by simp) (by decide) _ ?_
    intro l hl
    simp only [List.mem_cons, List.not_mem_nil, or_false] at hl
    rcases hl with rfl | rfl | rfl | rfl | rfl | rfl
    · exact no_occurrence_line _ _ _ (by decide) (goodScore_colonFree sv h2) (by decide)
    · exact no_occurrence_line _ _ _ (by decide) (goodScore_colonFree av h3) (by decide)
    · exact no_occurrence_line _ _ _ (by decide) (goodScore_colonFree fv h4) (by decide)
    · exact no_occurrence_line _ _ _ (by decide) (goodScore_colonFree uv h5) (by decide)
    · exact no_occurrence_line _ _ _ (by decide) (goodScore_colonFree dv h6) (by decide)
    · exact no_occurrence_line _ _ _ (by decide) h7.1 (by decide)
  have hvc' : ':' ∉ ('-' :: v) := by
    intro hc
    rcases List.mem_cons.mp hc with h | h
    · exact absurd h (by decide)
    · exact hvc h
  rw [show "happiness:".data = "happiness".data ++ [':'] from by decide]
  simp only [sevenLines]
  rw [joinLines_cons_cons]
  rw [show ("happiness".data ++ ':' :: ('-' :: v)) ++ '\n' :: joinLines
        ["sadness".data ++ ':' :: sv, "anger".data ++ ':' :: av,
          "fear".data ++ ':' :: fv, "surprise".data ++ ':' :: uv,
          "disgust".data ++ ':' :: dv, "concepts".data ++ ':' :: cv] =
      ("happiness".data ++ [':']) ++ (('-' :: v) ++ '\n' :: joinLines
        ["sadness".data ++ ':' :: sv, "anger".data ++ ':' :: av,
          "fear".data ++ ':' :: fv, "surprise".data ++ ':' :: uv,
          "disgust".data ++ ':' :: dv, "concepts".data ++ ':' :: cv]) from by simp]
  rw [show ("happiness".data ++ [':'] : Str) = 'h' :: ("appiness".data ++ [':']) from by decide]
  rw [scanFor_step_none 'h' ("appiness".data ++ [':']) scanScoreVal _
    (by
      rw [show ('-' :: v) ++ '\n' :: joinLines
          ["sadness".data ++ ':' :: sv, "anger".data ++ ':' :: av,
            "fear".data ++ ':' :: fv, "surprise".data ++ ':' :: uv,
            "disgust".data ++ ':' :: dv, "concepts".data ++ ':' :: cv] =
        '-' :: (v ++ '\n' :: joinLines
          ["sadness".data ++ ':' :: sv, "anger".data ++ ':' :: av,
            "fear".data ++ ':' :: fv, "surprise".data ++ ':' :: uv,
            "disgust".data ++ ':' :: dv, "concepts".data ++ ':' :: cv]) from rfl]
      exact scanScoreVal_minus _)]
  rw [show ('h' :: ("appiness".data ++ [':']) : Str) = "happiness".data ++ [':'] from by decide]
  apply scanFor_none
  rw [show ("appiness".data ++ [':']) ++ (('-' :: v) ++ '\n' :: joinLines
        ["sadness".data ++ ':' :: sv, "anger".data ++ ':' :: av,
          "fear".data ++ ':' :: fv, "surprise".data ++ ':' :: uv,
          "disgust".data ++ ':' :: dv, "concepts".data ++ ':' :: cv]) =
      ("appiness".data ++ ':' :: ('-' :: v)) ++ '\n' :: joinLines
        ["sadness".data ++ ':' :: sv, "anger".data ++ ':' :: av,
          "fear".data ++ ':' :: fv, "surprise".data ++ ':' :: uv,
          "disgust".data ++ ':' :: dv, "concepts".data ++ ':' :: cv] from by simp]
  exact occursInB_append_newline _ _ _ (by simp) (by decide)
    (no_occurrence_line "happiness".data "appiness".data ('-' :: v) (by decide) hvc'
      (by decide)) hBclean

/-- C5: a reply missing any one of the seven labelled fields (no
occurrence of that label anywhere in the reply) is Malformed with the
entire raw reply as reason, whichever label is missing; and a reply made
of all seven labelled contract lines, in any order, parses to a
Success. -/
theorem parseSentimentResponse_labels :
    (∀ content : Str,
      (∃ w ∈ ["happiness:".data, "sadness:".data, "anger:".data, "fear:".data,
          "surprise:".data, "disgust:".data, "concepts:".data],
        occursInB w content = false) →
      parseSentimentResponse content = .failure (some content)) ∧
    (∀ hv sv av fv uv dv cv : Str, ∀ lines : List Str,
      lines.Perm (sevenLines hv sv av fv uv dv cv) →
      goodScore hv → goodScore sv → goodScore av → goodScore fv → goodScore uv →
      goodScore dv → goodConcepts cv →
      parseSentimentResponse (joinLines lines) =
        .success (parseFloatQ hv) (parseFloatQ sv) (parseFloatQ av) (parseFloatQ fv)
          (parseFloatQ uv) (parseFloatQ dv) (splitConcepts cv)) := by
  constructor
  · rintro content ⟨w, hw, hocc⟩
    simp only [List.mem_cons, List.not_mem_nil, or_false] at hw
    rcases hw with rfl | rfl | rfl | rfl | rfl | rfl | rfl
    · exact parse_failure_cases content (Or.inl (scanFor_none _ _ content hocc))
    · exact parse_failure_cases content (Or.inr (Or.inl (scanFor_none _ _ content hocc)))
    · exact parse_failure_cases content
        (Or.inr (Or.inr (Or.inl (scanFor_none _ _ content hocc))))
    · exact parse_failure_cases content
        (Or.inr (Or.inr (Or.inr (Or.inl (scanFor_none _ _ content hocc)))))
    · exact parse_failure_cases content
        (Or.inr (Or.inr (Or.inr (Or.inr (Or.inl (scanFor_none _ _ content hocc))))))
    · exact parse_failure_cases content
        (Or.inr (Or.inr (Or.inr (Or.inr (Or.inr (Or.inl
          (scanFor_none _ _ content hocc)))))))
    · exact parse_failure_cases content
        (Or.inr (Or.inr (Or.inr (Or.inr (Or.inr (Or.inr
          (scanFor_none _ _ content hocc)))))))
  · intro hv sv av fv uv dv cv lines hperm h1 h2 h3 h4 h5 h6 h7
    exact parse_good_lines hv sv av fv uv dv cv lines hperm h1 h2 h3 h4 h5 h6 h7

/-- C5 witness: a reply with no labels at all is Malformed with itself as
reason, and a reply whose seven lines are reordered (sadness first)
still parses to the Success carrying each labelled value. -/
theorem parseSentimentResponse_labels_witness :
    parseSentimentResponse "hello".data = .failure (some "hello".data) ∧
    parseSentimentResponse (joinLines
        ["sadness".data ++ ':' :: "1".data,
          "happiness".data ++ ':' :: "5".data,
          "anger".data ++ ':' :: "0".data,
          "fear".data ++ ':' :: "2".data,
          "surprise".data ++ ':' :: "3".data,
          "disgust".data ++ ':' :: "4".data,
          "concepts".data ++ ':' :: "a, b".data]) =
      .success (parseFloatQ "5".data) (parseFloatQ "1".data) (parseFloatQ "0".data)
        (parseFloatQ "2".data) (parseFloatQ "3".data) (parseFloatQ "4".data)
        (splitConcepts "a, b".data) :=
  ⟨parseSentimentResponse_labels.1 "hello".data
      ⟨"happiness:".data, by decide, by decide⟩,
    parseSentimentResponse_labels.2 "5".data "1".data "0".data "2".data "3".data
      "4".data "a, b".data _ (by decide) (by decide) (by decide) (by decide)
      (by decide) (by decide) (by decide) (by decide)⟩

/-- C6 counterexample: a reply that trims to the NO SENTIMENT literal but
carries a leading space is not mapped to the sentinel: its failure
reason keeps the space, and the aggregator counts it as a true failure,
not a no-sentiment outcome, contradicting the claimed trimming. -/
theorem noSentiment_trim_counterexample :
    trimStr " NO SENTIMENT".data = "NO SENTIMENT".data ∧
    parseSentimentResponse " NO SENTIMENT".data = .failure (some " NO SENTIMENT".data) ∧
    " NO SENTIMENT".data ≠ noSentimentStr ∧
    (aggregate [parseSentimentResponse " NO SENTIMENT".data]).noSentimentCount = 0 ∧
    (aggregate [parseSentimentResponse " NO SENTIMENT".data]).failureCount = 1 := by
  refine ⟨by decide, by decide, by decide, by decide, by decide⟩

/-- C6 amended: no trimming happens anywhere: a failure reason equals the
NO SENTIMENT sentinel exactly when the raw reply is the literal sentinel
string, and the aggregator counts a failure as no-sentiment exactly when
its reason is the sentinel and as a true failure otherwise. -/
theorem noSentiment_sentinel :
    (∀ content r : Str, parseSentimentResponse content = .failure (some r) →
      (r = noSentimentStr ↔ content = noSentimentStr)) ∧
    parseSentimentResponse noSentimentStr = .failure (some noSentimentStr) ∧
    (∀ results : List SentimentResult,
      (aggregate results).noSentimentCount = results.countP isNoSentiment ∧
      (aggregate results).failureCount = results.countP isOtherFailure) := by
  refine ⟨?_, by decide, ?_⟩
  · intro content r h
    have h2 := parse_failure_reason content (some r) h
    obtain rfl : r = content := Option.some.inj h2
    exact Iff.rfl
  · intro results
    exact ⟨by simpa [aggregate, initAgg] using
        foldl_aggStep_noSentimentCount results initAgg,
      by simpa [aggregate, initAgg] using foldl_aggStep_failureCount results initAgg⟩

/-- C6 amended witness: the sentinel reply itself satisfies the
equivalence, and a one-failure batch with the sentinel reason is tallied
as no-sentiment. -/
theorem noSentiment_sentinel_witness :
    (noSentimentStr = noSentimentStr ↔ noSentimentStr = noSentimentStr) ∧
    (aggregate [SentimentResult.failure (some noSentimentStr)]).noSentimentCount =
      [SentimentResult.failure (some noSentimentStr)].countP isNoSentiment :=
  ⟨noSentiment_sentinel.1 noSentimentStr noSentimentStr (by decide),
    (noSentiment_sentinel.2.2 [SentimentResult.failure (some noSentimentStr)]).1⟩

/-- C7 counterexample: a reply containing all seven labels whose
happiness value is negative is rejected as Malformed instead of parsed
into a Success, because the value pattern matches only digits and
dots. -/
theorem parse_negative_counterexample :
    (["happiness:".data, "sadness:".data, "anger:".data, "fear:".data,
        "surprise:".data, "disgust:".data, "concepts:".data].all
      (fun w => occursInB w
        "happiness:-3\nsadness:1\nanger:0\nfear:0\nsurprise:0\ndisgust:0\nconcepts:a".data))
      = true ∧
    parseSentimentResponse
        "happiness:-3\nsadness:1\nanger:0\nfear:0\nsurprise:0\ndisgust:0\nconcepts:a".data =
      .failure (some
        "happiness:-3\nsadness:1\nanger:0\nfear:0\nsurprise:0\ndisgust:0\nconcepts:a".data) := by
  refine ⟨by decide, by decide⟩

/-- C7 amended: fractional and greater-than-nine score values are parsed
as floating point and propagated as-is into a Success (here 7.5 and 12),
while a negative score value makes the reply Malformed: the digits-and-
dots value pattern cannot match a minus sign. -/
theorem parse_out_of_contract_values :
    (parseSentimentResponse (joinLines (sevenLines "7.5".data "12".data "0".data
        "0".data "3".data "9".data "x".data)) =
      .success (parseFloatQ "7.5".data) (parseFloatQ "12".data) (parseFloatQ "0".data)
        (parseFloatQ "0".data) (parseFloatQ "3".data) (parseFloatQ "9".data)
        (splitConcepts "x".data) ∧
      parseFloatQ "7.5".data = 15 / 2 ∧ parseFloatQ "12".data = 12) ∧
    (∀ v sv av fv uv dv cv : Str,
      goodScore v → goodScore sv → goodScore av → goodScore fv → goodScore uv →
      goodScore dv → goodConcepts cv →
      parseSentimentResponse (joinLines (sevenLines ('-' :: v) sv av fv uv dv cv)) =
        .failure (some (joinLines (sevenLines ('-' :: v) sv av fv uv dv cv)))) := by
  constructor
  · refine ⟨parse_good_lines "7.5".data "12".data "0".data "0".data "3".data "9".data
      "x".data _ (List.Perm.refl _) (by decide) (by decide) (by decide) (by decide)
      (by decide) (by decide) (by decide), ?_, ?_⟩
    · show ((7 : ℕ) : ℚ) + ((5 : ℕ) : ℚ) / 10 ^ 1 = 15 / 2
      norm_num
    · show ((12 : ℕ) : ℚ) = 12
      norm_num
  · intro v sv av fv uv dv cv hgv h2 h3 h4 h5 h6 h7
    exact parse_failure_cases _
      (Or.inl (scan_happiness_negative v sv av fv uv dv cv h2 h3 h4 h5 h6 h7
        (goodScore_colonFree v hgv)))

/-- C7 amended witness: the negative branch instantiated at the value -3
with well-formed remaining fields yields a Malformed failure. -/
theorem parse_out_of_contract_values_witness :
    goodScore "3".data ∧
    parseSentimentResponse (joinLines (sevenLines ('-' :: "3".data) "1".data "0".data
        "0".data "0".data "0".data "a".data)) =
      .failure (some (joinLines (sevenLines ('-' :: "3".data) "1".data "0".data
        "0".data "0".data "0".data "a".data))) :=
  ⟨by decide,
    parse_out_of_contract_values.2 "3".data "1".data "0".data "0".data "0".data
      "0".data "a".data (by decide) (by decide) (by decide) (by decide) (by decide)
      (by decide) (by decide)⟩

end HappinessMeter
